import Mathlib

/-!
Connection-string factories of `machinery/v1` (factories.go).

A shallow embedding of `parseRedisURL`, `BrokerFactory` and `BackendFactory`.

* A Go `string` is modelled as a list of characters (`Str`).  Every separator
  the program splits on is ASCII, so cutting a string at characters and at
  bytes gives the same pieces.
* A run-time panic (an index out of range) is modelled by `none` in `Option`.
* A Go result `(value, error)` is kept as it is: a pair or a record whose
  `err` component is `none` for `nil`.
* The functions of the Go standard library that the program calls
  (`strings.HasPrefix`, `strings.Index`, `strings.Split`, `strconv.Atoi`) are
  written out after their library sources.
* The constructors of the packages `brokers` and `backends` are external; the
  factories take them as a record of functions.
-/

namespace Machinery

/-- A Go string: a finite sequence of characters. -/
abbrev Str := List Char

/-! ## Standard library -/

/-- Go `strings.HasPrefix(s, prefix)`. -/
def HasPrefix (s pre : Str) : Bool := pre.isPrefixOf s

/-- Go `strings.Index(s, sep)`: the position of the leftmost occurrence of
`sep` in `s`, `none` standing for `-1`. -/
def Index : Str → Str → Option Nat
  | [], sep => if sep.isPrefixOf [] then some 0 else none
  | c :: cs, sep =>
    if sep.isPrefixOf (c :: cs) then some 0 else (Index cs sep).map (· + 1)

/-- The loop of Go `genSplit(s, sep, 0, n)`: at most `k` times, cut `s` at the
leftmost occurrence of `sep` and go on with what follows that occurrence; the
text that is left is the last segment. -/
def splitLoop (sep : Str) : Nat → Str → List Str
  | 0, s => [s]
  | k + 1, s =>
    match Index s sep with
    | none => [s]
    | some m => s.take m :: splitLoop sep k (s.drop (m + sep.length))

/-- Go `strings.Split(s, sep)` for a non-empty `sep`.  The library bounds the
loop by the number of non-overlapping occurrences of `sep`, which is at most
`len(s)`; once no occurrence is left the loop stops by itself, so the bound
`len(s)` yields the same segments (`splitLoop_fuel`). -/
def Split (s sep : Str) : List Str := splitLoop sep s.length s

/-- The value of a decimal digit character. -/
def digitVal (c : Char) : Option Nat :=
  if '0' ≤ c ∧ c ≤ '9' then some (c.toNat - '0'.toNat) else none

/-- The digit loop of `strconv.ParseUint` in base 10: `n = n*10 + digit`, a
syntax error (`none`) at the first character that is not a digit. -/
def parseDigits : Str → Nat → Option Nat
  | [], n => some n
  | c :: cs, n =>
    match digitVal c with
    | none => none
    | some d => parseDigits cs (n * 10 + d)

/-- Go `strconv.Atoi(s)` for an `int` of `bits` bits: an optional sign, then
one or more decimal digits; `none` is a non-nil error (syntax, or a value
outside `[-2^(bits-1), 2^(bits-1) - 1]`). -/
def Atoi (bits : Nat) (s : Str) : Option Int :=
  match s with
  | [] => none
  | c :: cs =>
    let neg := decide (c = '-')
    let ds := if c = '-' ∨ c = '+' then cs else c :: cs
    match ds with
    | [] => none
    | d :: ds' =>
      match parseDigits (d :: ds') 0 with
      | none => none
      | some n =>
        if neg then
          if n ≤ 2 ^ (bits - 1) then some (-(n : Int)) else none
        else
          if n < 2 ^ (bits - 1) then some (n : Int) else none

/-! ## parseRedisURL -/

/-- The literal `"redis://"`. -/
def redisScheme : Str := ['r', 'e', 'd', 'i', 's', ':', '/', '/']

/-- The literal `"memcache://"`. -/
def memcacheScheme : Str := ['m', 'e', 'm', 'c', 'a', 'c', 'h', 'e', ':', '/', '/']

/-- The literal `"amqp://"`. -/
def amqpScheme : Str := ['a', 'm', 'q', 'p', ':', '/', '/']

/-- The literal `"mongodb://"`. -/
def mongodbScheme : Str := ['m', 'o', 'n', 'g', 'o', 'd', 'b', ':', '/', '/']

/-- The literal `"eager"`. -/
def eagerScheme : Str := ['e', 'a', 'g', 'e', 'r']

/-- The message of `errors.New("No redis scheme found")`. -/
def errNoRedisScheme : Str := "No redis scheme found".data

/-- The message of `fmt.Errorf("Redis connection string should be in format
redis://password@host:port/db, instead got %s", url)`. -/
def errRedisFormat (url : Str) : Str :=
  "Redis connection string should be in format redis://password@host:port/db, instead got ".data
    ++ url

/-- The named results `(host, password string, db int, err error)` of
`parseRedisURL`; `err = none` is `nil`. -/
structure RedisURL where
  host : Str
  password : Str
  db : Int
  err : Option Str
  deriving DecidableEq, Repr

/-- The function `parseRedisURL(url)`; `bits` is the size of the platform
`int`.  The result is `none` when an index expression panics. -/
def parseRedisURL (bits : Nat) (url : Str) : Option RedisURL :=
  let parts := Split url redisScheme
  parts[0]?.bind fun p0 =>
  if p0 ≠ [] then
    some { host := [], password := [], db := 0, err := some errNoRedisScheme }
  else if parts.length ≠ 2 then
    some { host := [], password := [], db := 0, err := some (errRedisFormat url) }
  else
    parts[1]?.bind fun p1 =>
    let parts := Split p1 ['@']
    (if parts.length = 2 then
      parts[0]?.bind fun pw => parts[1]?.bind fun hd => some (pw, hd)
    else
      parts[0]?.bind fun hd => some ([], hd)).bind fun (password, hostAndDB) =>
    let parts := Split hostAndDB ['/']
    if parts.length = 1 then
      parts[0]?.bind fun h =>
      some { host := h, password := password, db := 0, err := none }
    else
      parts[0]?.bind fun h =>
      parts[1]?.bind fun d =>
      match Atoi bits d with
      | some v => some { host := h, password := password, db := v, err := none }
      | none => some { host := h, password := password, db := 0, err := none }

/-! ## The factories -/

/-- The fields of `config.Config` that the factories read, and the rest of the
configuration (`ext`), which they only hand on to the constructors. -/
structure Config (E : Type) where
  Broker : Str
  ResultBackend : Str
  ext : E

/-- The constructors of package `brokers` called by `BrokerFactory`. -/
structure BrokerCtors (E B : Type) where
  NewAMQPBroker : Config E → B
  NewRedisBroker : Config E → Str → Str → Int → B
  NewEagerBroker : B

/-- The constructors of package `backends` called by `BackendFactory`;
`NewMongodbBackend` alone returns a pair `(backend, error)`. -/
structure BackendCtors (E K : Type) where
  NewAMQPBackend : Config E → K
  NewMemcacheBackend : Config E → List Str → K
  NewRedisBackend : Config E → Str → Str → Int → K
  NewMongodbBackend : Config E → Option K × Option Str
  NewEagerBackend : K

/-- The message of `fmt.Errorf("Redis broker connection string should be in
format redis://host:port, instead got %s", cnf.Broker)`. -/
def errRedisBroker (s : Str) : Str :=
  "Redis broker connection string should be in format redis://host:port, instead got ".data ++ s

/-- The message of `fmt.Errorf("Factory failed with broker URL: %v", cnf.Broker)`. -/
def errBrokerFactory (s : Str) : Str :=
  "Factory failed with broker URL: ".data ++ s

/-- The message of `fmt.Errorf("Memcache result backend connection string
should be in format memcache://server1:port,server2:port, instead got %s",
cnf.ResultBackend)`. -/
def errMemcacheFormat (s : Str) : Str :=
  "Memcache result backend connection string should be in format memcache://server1:port,server2:port, instead got ".data
    ++ s

/-- The message of `fmt.Errorf("Factory failed with result backend: %v",
cnf.ResultBackend)`. -/
def errBackendFactory (s : Str) : Str :=
  "Factory failed with result backend: ".data ++ s

/-- The function `BrokerFactory(cnf)`: the pair `(broker, error)`, `none` for
`nil`; the outer `none` is a panic. -/
def BrokerFactory {E B : Type} (bits : Nat) (ctors : BrokerCtors E B) (cnf : Config E) :
    Option (Option B × Option Str) :=
  if HasPrefix cnf.Broker amqpScheme then
    some (some (ctors.NewAMQPBroker cnf), none)
  else if HasPrefix cnf.Broker redisScheme then
    let parts := Split cnf.Broker redisScheme
    if parts.length ≠ 2 then
      some (none, some (errRedisBroker cnf.Broker))
    else
      (parseRedisURL bits cnf.Broker).bind fun r =>
      if r.err ≠ none then
        some (none, r.err)
      else
        some (some (ctors.NewRedisBroker cnf r.host r.password r.db), none)
  else if HasPrefix cnf.Broker eagerScheme then
    some (some ctors.NewEagerBroker, none)
  else
    some (none, some (errBrokerFactory cnf.Broker))

/-- The function `BackendFactory(cnf)`: the pair `(backend, error)`, `none` for
`nil`; the outer `none` is a panic. -/
def BackendFactory {E K : Type} (bits : Nat) (ctors : BackendCtors E K) (cnf : Config E) :
    Option (Option K × Option Str) :=
  if HasPrefix cnf.ResultBackend amqpScheme then
    some (some (ctors.NewAMQPBackend cnf), none)
  else if HasPrefix cnf.ResultBackend memcacheScheme then
    let parts := Split cnf.ResultBackend memcacheScheme
    if parts.length ≠ 2 then
      some (none, some (errMemcacheFormat cnf.ResultBackend))
    else
      parts[1]?.bind fun p1 =>
      let servers := Split p1 [',']
      some (some (ctors.NewMemcacheBackend cnf servers), none)
  else if HasPrefix cnf.ResultBackend redisScheme then
    (parseRedisURL bits cnf.ResultBackend).bind fun r =>
    if r.err ≠ none then
      some (none, r.err)
    else
      some (some (ctors.NewRedisBackend cnf r.host r.password r.db), none)
  else if HasPrefix cnf.ResultBackend mongodbScheme then
    some (ctors.NewMongodbBackend cnf)
  else if HasPrefix cnf.ResultBackend eagerScheme then
    some (some ctors.NewEagerBackend, none)
  else
    some (none, some (errBackendFactory cnf.ResultBackend))

/-- A stand-in for the values of package `brokers`: each constructor call is
recorded as a term. -/
inductive BrokerTerm where
  | amqp
  | redis (host password : Str) (db : Int)
  | eager
  deriving DecidableEq, Repr

/-- A stand-in for the values of package `backends`: each constructor call is
recorded as a term. -/
inductive BackendTerm where
  | amqp
  | memcache (servers : List Str)
  | redis (host password : Str) (db : Int)
  | mongodb
  | eager
  deriving DecidableEq, Repr

/-- Constructors of `brokers` that record their arguments. -/
def termBrokers : BrokerCtors Unit BrokerTerm where
  NewAMQPBroker := fun _ => BrokerTerm.amqp
  NewRedisBroker := fun _ h p d => BrokerTerm.redis h p d
  NewEagerBroker := BrokerTerm.eager

/-- Constructors of `backends` that record their arguments. -/
def termBackends : BackendCtors Unit BackendTerm where
  NewAMQPBackend := fun _ => BackendTerm.amqp
  NewMemcacheBackend := fun _ l => BackendTerm.memcache l
  NewRedisBackend := fun _ h p d => BackendTerm.redis h p d
  NewMongodbBackend := fun _ => (some BackendTerm.mongodb, none)
  NewEagerBackend := BackendTerm.eager

/-- A configuration with the given broker and result-backend strings. -/
def mkConfig (broker backend : Str) : Config Unit :=
  { Broker := broker, ResultBackend := backend, ext := () }

/-! ## Notions of the specification -/

/-- The text of `s` before the first `c` (all of `s` when there is none). -/
def beforeFirst (c : Char) (s : Str) : Str := s.takeWhile (· ≠ c)

/-- The text of `s` after the first `c` (empty when there is none). -/
def afterFirst (c : Char) (s : Str) : Str := (s.dropWhile (· ≠ c)).drop 1

/-- The number of positions of `s` at which `sep` occurs. -/
def occurrences (sep : Str) : Str → Nat
  | [] => if sep.isPrefixOf [] then 1 else 0
  | c :: cs => (if sep.isPrefixOf (c :: cs) then 1 else 0) + occurrences sep cs

/-- The password part of the remainder after the scheme: the text before the
`@` when the remainder has exactly one `@`, empty otherwise. -/
def passwordPart (rest : Str) : Str :=
  if rest.count '@' = 1 then beforeFirst '@' rest else []

/-- The host-and-db part of the remainder after the scheme: the text after the
`@` when the remainder has exactly one `@`, the text before the first `@`
otherwise. -/
def hostAndDbPart (rest : Str) : Str :=
  if rest.count '@' = 1 then afterFirst '@' rest else beforeFirst '@' rest

/-- The db segment of a host-and-db part: the text after the first `/` up to
the next `/` or the end. -/
def dbSegment (hd : Str) : Str := beforeFirst '/' (afterFirst '/' hd)

/-- The decimal rendering of a natural number (most significant digit first,
no sign, no leading zero). -/
def decimal (n : Nat) : Str := Nat.toDigits 10 n

/-- The scheme tags of the specification's data model. -/
inductive Scheme where
  | amqp
  | memcache
  | redis
  | mongodb
  | eager
  deriving DecidableEq, Repr

/-- The literal prefix of each scheme. -/
def schemeLit : Scheme → Str
  | Scheme.amqp => amqpScheme
  | Scheme.memcache => memcacheScheme
  | Scheme.redis => redisScheme
  | Scheme.mongodb => mongodbScheme
  | Scheme.eager => eagerScheme

/-- The dispatch of the specification (first match wins, by literal prefix):
the first scheme of `order` whose literal is a prefix of `s`. -/
def selectScheme (order : List Scheme) (s : Str) : Option Scheme :=
  order.find? fun k => HasPrefix s (schemeLit k)

/-- The action column of the specification's table for the broker resolver,
as a function of the selected scheme; the actions are the bodies of the
branches of `BrokerFactory`. -/
def brokerAction {E B : Type} (bits : Nat) (ctors : BrokerCtors E B) (cnf : Config E) :
    Option Scheme → Option (Option B × Option Str)
  | some Scheme.amqp => some (some (ctors.NewAMQPBroker cnf), none)
  | some Scheme.redis =>
    if (Split cnf.Broker redisScheme).length ≠ 2 then
      some (none, some (errRedisBroker cnf.Broker))
    else
      (parseRedisURL bits cnf.Broker).bind fun r =>
      if r.err ≠ none then
        some (none, r.err)
      else
        some (some (ctors.NewRedisBroker cnf r.host r.password r.db), none)
  | some Scheme.eager => some (some ctors.NewEagerBroker, none)
  | _ => some (none, some (errBrokerFactory cnf.Broker))

/-- The action column of the specification's table for the backend resolver,
as a function of the selected scheme; the actions are the bodies of the
branches of `BackendFactory`. -/
def backendAction {E K : Type} (bits : Nat) (ctors : BackendCtors E K) (cnf : Config E) :
    Option Scheme → Option (Option K × Option Str)
  | some Scheme.amqp => some (some (ctors.NewAMQPBackend cnf), none)
  | some Scheme.memcache =>
    if (Split cnf.ResultBackend memcacheScheme).length ≠ 2 then
      some (none, some (errMemcacheFormat cnf.ResultBackend))
    else
      (Split cnf.ResultBackend memcacheScheme)[1]?.bind fun p1 =>
      some (some (ctors.NewMemcacheBackend cnf (Split p1 [','])), none)
  | some Scheme.redis =>
    (parseRedisURL bits cnf.ResultBackend).bind fun r =>
    if r.err ≠ none then
      some (none, r.err)
    else
      some (some (ctors.NewRedisBackend cnf r.host r.password r.db), none)
  | some Scheme.mongodb => some (ctors.NewMongodbBackend cnf)
  | some Scheme.eager => some (some ctors.NewEagerBackend, none)
  | none => some (none, some (errBackendFactory cnf.ResultBackend))

/-! ## Lemmas on `Index` and `Split` -/

theorem Index_zero_iff (s sep : Str) : Index s sep = some 0 ↔ sep <+: s := by
  cases s with
  | nil => simp [Index]
  | cons c cs =>
    by_cases h : sep.isPrefixOf (c :: cs)
    · simp only [Index, h, if_true, true_iff]
      exact List.isPrefixOf_iff_prefix.mp h
    · have h2 : ¬ sep <+: c :: cs := fun hp => h (List.isPrefixOf_iff_prefix.mpr hp)
      simp [Index, h, h2]

theorem Index_none_iff (s sep : Str) : Index s sep = none ↔ ¬ sep <:+: s := by
  induction s with
  | nil => simp [Index]
  | cons c cs ih =>
    rw [List.infix_cons_iff, not_or, ← ih]
    by_cases h : sep.isPrefixOf (c :: cs)
    · have h2 : sep <+: c :: cs := List.isPrefixOf_iff_prefix.mp h
      simp [Index, h, h2]
    · have h2 : ¬ sep <+: c :: cs := fun hp => h (List.isPrefixOf_iff_prefix.mpr hp)
      simp [Index, h, h2]

theorem Index_leading (sep rest : Str) : Index (sep ++ rest) sep = some 0 :=
  (Index_zero_iff _ _).mpr (List.prefix_append sep rest)

theorem Index_single_notMem {c : Char} {s : Str} (h : c ∉ s) : Index s [c] = none := by
  rw [Index_none_iff]
  intro hi
  exact h (hi.subset (List.mem_singleton_self c))

theorem Index_single_append {c : Char} (a b : Str) (h : c ∉ a) :
    Index (a ++ c :: b) [c] = some a.length := by
  induction a with
  | nil => simp [Index]
  | cons x xs ih =>
    have hx : ¬ x = c := fun e => h (by simp [e])
    have hxs : c ∉ xs := fun e => h (List.mem_cons_of_mem _ e)
    have hx2 : ¬ c = x := fun e => hx e.symm
    simp [Index, List.isPrefixOf, hx2, ih hxs]

theorem Index_some_length {s sep : Str} {m : Nat} (hsep : sep ≠ [])
    (h : Index s sep = some m) : 0 < s.length := by
  cases s with
  | nil =>
    cases sep with
    | nil => exact absurd rfl hsep
    | cons a as => simp [Index, List.isPrefixOf] at h
  | cons c cs => simp

theorem splitLoop_of_none {sep s : Str} (k : Nat) (h : Index s sep = none) :
    splitLoop sep k s = [s] := by
  cases k <;> simp [splitLoop, h]

theorem splitLoop_fuel {sep : Str} (hsep : sep ≠ []) :
    ∀ (k1 k2 : Nat) (s : Str), s.length ≤ k1 → s.length ≤ k2 →
      splitLoop sep k1 s = splitLoop sep k2 s := by
  have hpos : 0 < sep.length := List.length_pos.mpr hsep
  intro k1
  induction k1 with
  | zero =>
    intro k2 s h1 _
    have hs : s = [] := List.length_eq_zero.mp (Nat.le_zero.mp h1)
    subst hs
    have hn : Index [] sep = none := by
      cases hI : Index [] sep with
      | none => rfl
      | some m => exact absurd (Index_some_length hsep hI) (by simp)
    rw [splitLoop_of_none _ hn, splitLoop_of_none _ hn]
  | succ k ih =>
    intro k2 s h1 h2
    cases hI : Index s sep with
    | none => rw [splitLoop_of_none _ hI, splitLoop_of_none _ hI]
    | some m =>
      have hlen := Index_some_length hsep hI
      cases k2 with
      | zero => omega
      | succ j =>
        simp only [splitLoop, hI]
        congr 1
        apply ih <;> simp only [List.length_drop] <;> omega

theorem Split_of_none {sep s : Str} (h : Index s sep = none) : Split s sep = [s] :=
  splitLoop_of_none _ h

theorem Split_ne_nil (s sep : Str) : Split s sep ≠ [] := by
  unfold Split
  cases s.length with
  | zero => simp [splitLoop]
  | succ k =>
    cases hI : Index s sep <;> simp [splitLoop, hI]

theorem Split_cut {sep s : Str} {m : Nat} (hsep : sep ≠ []) (h : Index s sep = some m) :
    Split s sep = s.take m :: Split (s.drop (m + sep.length)) sep := by
  have hlen := Index_some_length hsep h
  have hpos : 0 < sep.length := List.length_pos.mpr hsep
  unfold Split
  obtain ⟨k, hk⟩ : ∃ k, s.length = k + 1 := ⟨s.length - 1, by omega⟩
  rw [hk]
  simp only [splitLoop, h]
  congr 1
  apply splitLoop_fuel hsep <;> simp only [List.length_drop] <;> omega

theorem Split_leading {sep : Str} (hsep : sep ≠ []) (rest : Str) :
    Split (sep ++ rest) sep = [] :: Split rest sep := by
  rw [Split_cut hsep (Index_leading sep rest)]
  simp

theorem Split_single_notMem {c : Char} {s : Str} (h : c ∉ s) : Split s [c] = [s] :=
  Split_of_none (Index_single_notMem h)

theorem Split_single_append {c : Char} (a b : Str) (h : c ∉ a) :
    Split (a ++ c :: b) [c] = a :: Split b [c] := by
  rw [Split_cut (by simp) (Index_single_append a b h)]
  simp

theorem exists_first {c : Char} {s : Str} (h : c ∈ s) :
    ∃ a b, s = a ++ c :: b ∧ c ∉ a := by
  induction s with
  | nil => simp at h
  | cons x xs ih =>
    by_cases hx : c = x
    · exact ⟨[], xs, by simp [hx], by simp⟩
    · have hm : c ∈ xs := by
        rcases List.mem_cons.mp h with h1 | h1
        · exact absurd h1 hx
        · exact h1
      obtain ⟨a, b, hab, hna⟩ := ih hm
      refine ⟨x :: a, b, by simp [hab], ?_⟩
      intro hc
      rcases List.mem_cons.mp hc with h1 | h1
      · exact hx h1
      · exact hna h1

theorem beforeFirst_notMem {c : Char} {s : Str} (h : c ∉ s) : beforeFirst c s = s := by
  unfold beforeFirst
  rw [List.takeWhile_eq_self_iff]
  intro x hx
  have : x ≠ c := fun e => h (e ▸ hx)
  simpa using this

theorem beforeFirst_append {c : Char} (a b : Str) (h : c ∉ a) :
    beforeFirst c (a ++ c :: b) = a := by
  induction a with
  | nil => simp [beforeFirst]
  | cons x xs ih =>
    have hx : x ≠ c := fun e => h (by simp [e])
    have hxs : c ∉ xs := fun e => h (List.mem_cons_of_mem _ e)
    simpa [beforeFirst, List.takeWhile_cons, hx] using ih hxs

theorem afterFirst_append {c : Char} (a b : Str) (h : c ∉ a) :
    afterFirst c (a ++ c :: b) = b := by
  induction a with
  | nil => simp [afterFirst]
  | cons x xs ih =>
    have hx : x ≠ c := fun e => h (by simp [e])
    have hxs : c ∉ xs := fun e => h (List.mem_cons_of_mem _ e)
    simpa [afterFirst, List.dropWhile_cons, hx] using ih hxs

theorem Split_single_length (c : Char) (s : Str) :
    (Split s [c]).length = s.count c + 1 := by
  induction' hn : s.length using Nat.strong_induction_on with n ih generalizing s
  by_cases hc : c ∈ s
  · obtain ⟨a, b, rfl, hna⟩ := exists_first hc
    rw [Split_single_append a b hna, List.length_cons,
      ih b.length (by rw [← hn]; simp; omega) b rfl]
    simp [List.count_append, List.count_eq_zero_of_not_mem hna]
  · rw [Split_single_notMem hc]
    simp [List.count_eq_zero_of_not_mem hc]

theorem Split_single_head (c : Char) (s : Str) :
    (Split s [c])[0]? = some (beforeFirst c s) := by
  by_cases hc : c ∈ s
  · obtain ⟨a, b, rfl, hna⟩ := exists_first hc
    rw [Split_single_append a b hna, beforeFirst_append a b hna]
    simp
  · rw [Split_single_notMem hc, beforeFirst_notMem hc]
    simp

theorem Split_single_second {c : Char} {s : Str} (hc : c ∈ s) :
    (Split s [c])[1]? = some (beforeFirst c (afterFirst c s)) := by
  obtain ⟨a, b, rfl, hna⟩ := exists_first hc
  rw [Split_single_append a b hna, afterFirst_append a b hna]
  simpa using Split_single_head c b

theorem afterFirst_notMem_of_count {c : Char} {s : Str} (h : s.count c = 1) :
    c ∉ afterFirst c s := by
  have hc : c ∈ s := List.count_pos_iff.mp (by omega)
  obtain ⟨a, b, rfl, hna⟩ := exists_first hc
  rw [afterFirst_append a b hna]
  have h2 : b.count c = 0 := by
    simp [List.count_append, List.count_eq_zero_of_not_mem hna] at h
    exact h
  exact List.count_eq_zero.mp h2

/-- The result of `parseRedisURL` on a string that passes the scheme check, in
the notions of the specification. -/
theorem parseRedisURL_scheme_ok (bits : Nat) (rest : Str) (h : ¬ redisScheme <:+: rest) :
    parseRedisURL bits (redisScheme ++ rest) = some
      { host := beforeFirst '/' (hostAndDbPart rest)
        password := passwordPart rest
        db := if '/' ∈ hostAndDbPart rest then
                (Atoi bits (dbSegment (hostAndDbPart rest))).getD 0 else 0
        err := none } := by
  have hsp : Split (redisScheme ++ rest) redisScheme = [[], rest] := by
    rw [Split_leading (by simp [redisScheme]), Split_of_none ((Index_none_iff _ _).mpr h)]
  have hpair : (if (Split rest ['@']).length = 2 then
        (Split rest ['@'])[0]?.bind fun pw =>
          (Split rest ['@'])[1]?.bind fun hd => some (pw, hd)
      else (Split rest ['@'])[0]?.bind fun hd => some (([] : Str), hd))
      = some (passwordPart rest, hostAndDbPart rest) := by
    rw [Split_single_length, Split_single_head]
    by_cases h1 : rest.count '@' = 1
    · have hc : '@' ∈ rest := List.count_pos_iff.mp (by omega)
      rw [Split_single_second hc, beforeFirst_notMem (afterFirst_notMem_of_count h1)]
      simp [passwordPart, hostAndDbPart, h1]
    · simp [passwordPart, hostAndDbPart, h1]
  unfold parseRedisURL
  simp only [hsp]
  simp only [List.getElem?_cons_zero, Option.some_bind, ne_eq, not_true_eq_false, if_false,
    List.length_cons, List.length_nil, List.getElem?_cons_succ]
  rw [hpair]
  simp only [Option.some_bind, Split_single_length, Split_single_head]
  by_cases h2 : '/' ∈ hostAndDbPart rest
  · have hcnt : ¬ (List.count '/' (hostAndDbPart rest) + 1 = 1) := by
      have := List.count_pos_iff.mpr h2
      omega
    rw [if_neg hcnt, Split_single_second h2]
    simp only [Option.some_bind, if_pos h2, dbSegment]
    cases Atoi bits (beforeFirst '/' (afterFirst '/' (hostAndDbPart rest))) <;> rfl
  · have hcnt : List.count '/' (hostAndDbPart rest) + 1 = 1 := by
      simp [List.count_eq_zero_of_not_mem h2]
    rw [if_pos hcnt]
    simp [h2]

theorem Split_nil {sep : Str} (hsep : sep ≠ []) : Split [] sep = [[]] := by
  cases sep with
  | nil => exact absurd rfl hsep
  | cons a as => rfl

theorem Split_cut_length {sep s : Str} {m : Nat} (hsep : sep ≠ [])
    (h : Index s sep = some m) : 2 ≤ (Split s sep).length := by
  rw [Split_cut hsep h, List.length_cons]
  have := List.length_pos.mpr (Split_ne_nil (s.drop (m + sep.length)) sep)
  omega

theorem redisScheme_ne_nil : redisScheme ≠ [] := by simp [redisScheme]

/-- The result of `parseRedisURL` on a string that does not begin with the
scheme. -/
theorem parseRedisURL_no_scheme (bits : Nat) (url : Str) (h : ¬ redisScheme <+: url) :
    parseRedisURL bits url = some
      { host := [], password := [], db := 0
        err := some (if url = [] then errRedisFormat url else errNoRedisScheme) } := by
  by_cases hu : url = []
  · subst hu
    simp [parseRedisURL, Split_nil redisScheme_ne_nil]
  · have hhead : ∃ p0 tl, Split url redisScheme = p0 :: tl ∧ p0 ≠ [] := by
      cases hI : Index url redisScheme with
      | none => exact ⟨url, [], Split_of_none hI, hu⟩
      | some m =>
        refine ⟨url.take m, _, Split_cut redisScheme_ne_nil hI, ?_⟩
        have hm : m ≠ 0 := by
          intro h0
          subst h0
          exact h ((Index_zero_iff _ _).mp hI)
        simp [hm, hu]
    obtain ⟨p0, tl, hsp, hp0⟩ := hhead
    simp [parseRedisURL, hsp, hp0, hu]

/-- The result of `parseRedisURL` on a string that begins with the scheme and
contains it again. -/
theorem parseRedisURL_repeated (bits : Nat) (rest : Str) (h : redisScheme <:+: rest) :
    parseRedisURL bits (redisScheme ++ rest) = some
      { host := [], password := [], db := 0
        err := some (errRedisFormat (redisScheme ++ rest)) } := by
  obtain ⟨m, hm⟩ : ∃ m, Index rest redisScheme = some m := by
    cases hI : Index rest redisScheme with
    | none => exact absurd h ((Index_none_iff _ _).mp hI)
    | some m => exact ⟨m, rfl⟩
  have hlen := Split_cut_length redisScheme_ne_nil hm
  have hne : ¬ (Split rest redisScheme).length + 1 = 2 := by omega
  unfold parseRedisURL
  simp only [Split_leading redisScheme_ne_nil]
  simp [hne]

theorem occurrences_zero_iff (sep s : Str) : occurrences sep s = 0 ↔ ¬ sep <:+: s := by
  induction s with
  | nil => simp [occurrences]
  | cons c cs ih =>
    rw [List.infix_cons_iff, not_or, ← ih]
    by_cases h : sep.isPrefixOf (c :: cs)
    · have h2 : sep <+: c :: cs := List.isPrefixOf_iff_prefix.mp h
      simp [occurrences, h, h2]
    · have h2 : ¬ sep <+: c :: cs := fun hp => h (List.isPrefixOf_iff_prefix.mpr hp)
      simp [occurrences, h, h2]

theorem occurrences_redis_leading (rest : Str) :
    occurrences redisScheme (redisScheme ++ rest) = 1 + occurrences redisScheme rest := by
  simp [occurrences, redisScheme, List.isPrefixOf]

/-- Every call of `parseRedisURL` returns, and it returns either the error
record of a failed scheme check or the success record of the master lemma. -/
theorem parseRedisURL_cases (bits : Nat) (url : Str) :
    (∃ rest, url = redisScheme ++ rest ∧ ¬ redisScheme <:+: rest ∧
      parseRedisURL bits url = some
        { host := beforeFirst '/' (hostAndDbPart rest)
          password := passwordPart rest
          db := if '/' ∈ hostAndDbPart rest then
                  (Atoi bits (dbSegment (hostAndDbPart rest))).getD 0 else 0
          err := none }) ∨
    ((¬ redisScheme <+: url ∨ ∃ rest, url = redisScheme ++ rest ∧ redisScheme <:+: rest) ∧
      ∃ msg, parseRedisURL bits url = some { host := [], password := [], db := 0, err := some msg }) := by
  by_cases hp : redisScheme <+: url
  · obtain ⟨rest, rfl⟩ := hp
    by_cases hi : redisScheme <:+: rest
    · exact Or.inr ⟨Or.inr ⟨rest, rfl, hi⟩, _, parseRedisURL_repeated bits rest hi⟩
    · exact Or.inl ⟨rest, rfl, hi, parseRedisURL_scheme_ok bits rest hi⟩
  · exact Or.inr ⟨Or.inl hp, _, parseRedisURL_no_scheme bits url hp⟩

/-! ## Lemmas on occurrences of the scheme -/

theorem infix_split {sep a b : Str} {x : Char} (hx : x ∉ sep)
    (h : sep <:+: a ++ x :: b) : sep <:+: a ∨ sep <:+: b := by
  induction a with
  | nil =>
    rcases List.infix_cons_iff.mp h with hp | hi
    · cases sep with
      | nil => exact Or.inl List.nil_infix
      | cons y ys =>
        obtain ⟨t, ht⟩ := hp
        simp only [List.cons_append, List.cons.injEq] at ht
        exact absurd (by simp [ht.1]) hx
    · exact Or.inr hi
  | cons y ys ih =>
    rcases List.infix_cons_iff.mp h with hp | hi
    · left
      obtain ⟨t, ht0⟩ := hp
      have ht : sep ++ t = (y :: ys) ++ (x :: b) := ht0
      have hmem : x ∈ sep ++ t := by rw [ht]; simp
      have hxt : x ∈ t := by
        rcases List.mem_append.mp hmem with h1 | h1
        · exact absurd h1 hx
        · exact h1
      rcases List.append_eq_append_iff.mp ht with ⟨a', ha', _⟩ | ⟨c', hc', ht'⟩
      · exact ⟨[], a', by simpa using ha'.symm⟩
      · cases c' with
        | nil => exact ⟨[], [], by simp at hc'; simp [hc']⟩
        | cons z zs =>
          simp only [List.cons_append, List.cons.injEq] at ht'
          exact absurd (by rw [hc', ← ht'.1]; simp) hx
    · rcases ih hi with h1 | h1
      · exact Or.inl (List.infix_cons h1)
      · exact Or.inr h1

theorem redisScheme_not_infix_of_count {s : Str} (h : s.count '/' < 2) :
    ¬ redisScheme <:+: s := by
  intro hi
  have := hi.sublist.count_le '/'
  have h2 : redisScheme.count '/' = 2 := by decide
  omega

/-! ## Lemmas on `Atoi` and `decimal` -/

theorem digitVal_digitChar {k : Nat} (h : k < 10) : digitVal (Nat.digitChar k) = some k := by
  interval_cases k <;> decide

theorem digitChar_ne {k : Nat} (h : k < 10) {c : Char} (hc : digitVal c = none) :
    Nat.digitChar k ≠ c := by
  intro e
  rw [← e, digitVal_digitChar h] at hc
  exact absurd hc (by simp)

theorem parseDigits_toDigitsCore :
    ∀ (fuel n : Nat) (acc : Str), n < fuel →
      parseDigits (Nat.toDigitsCore 10 fuel n acc) 0 = parseDigits acc n := by
  intro fuel
  induction fuel with
  | zero => intro n acc h; omega
  | succ f ih =>
    intro n acc h
    have hd := digitVal_digitChar (Nat.mod_lt n (by decide : 10 > 0))
    by_cases h0 : n / 10 = 0
    · have hn : n % 10 = n := Nat.mod_eq_of_lt (by omega)
      rw [hn] at hd
      simp [Nat.toDigitsCore, h0, parseDigits, hd, hn]
    · have hlt : n / 10 < f := by omega
      simp only [Nat.toDigitsCore, h0, if_false]
      rw [ih (n / 10) _ hlt]
      simp only [parseDigits, hd]
      congr 1
      omega

theorem toDigitsCore_mem :
    ∀ (fuel n : Nat) (acc : Str) (c : Char), c ∈ Nat.toDigitsCore 10 fuel n acc →
      c ∈ acc ∨ ∃ k, k < 10 ∧ c = Nat.digitChar k := by
  intro fuel
  induction fuel with
  | zero => intro n acc c h; exact Or.inl h
  | succ f ih =>
    intro n acc c h
    have hk : n % 10 < 10 := Nat.mod_lt n (by decide)
    by_cases h0 : n / 10 = 0
    · simp only [Nat.toDigitsCore, h0, if_true] at h
      rcases List.mem_cons.mp h with h1 | h1
      · exact Or.inr ⟨_, hk, h1⟩
      · exact Or.inl h1
    · simp only [Nat.toDigitsCore, h0, if_false] at h
      rcases ih _ _ _ h with h1 | h1
      · rcases List.mem_cons.mp h1 with h2 | h2
        · exact Or.inr ⟨_, hk, h2⟩
        · exact Or.inl h2
      · exact Or.inr h1

theorem decimal_mem {n : Nat} {c : Char} (h : c ∈ decimal n) :
    ∃ k, k < 10 ∧ c = Nat.digitChar k := by
  rcases toDigitsCore_mem _ _ _ _ h with h1 | h1
  · simp at h1
  · exact h1

theorem decimal_notMem (n : Nat) {c : Char} (hc : digitVal c = none) : c ∉ decimal n := by
  intro h
  obtain ⟨k, hk, rfl⟩ := decimal_mem h
  exact digitChar_ne hk hc rfl

theorem parseDigits_decimal (n : Nat) : parseDigits (decimal n) 0 = some n := by
  unfold decimal Nat.toDigits
  rw [parseDigits_toDigitsCore _ _ _ (Nat.lt_succ_self n)]
  rfl

theorem Atoi_decimal (bits n : Nat) (h : n < 2 ^ (bits - 1)) :
    Atoi bits (decimal n) = some (n : Int) := by
  have hp := parseDigits_decimal n
  cases hd : decimal n with
  | nil =>
    rw [hd] at hp
    simp only [parseDigits, Option.some.injEq] at hp
    have h1 : decimal 0 = ['0'] := by decide
    rw [← hp, h1] at hd
    exact absurd hd (by simp)
  | cons c cs =>
    have hc : c ∈ decimal n := by rw [hd]; simp
    have hm : c ≠ '-' := fun e => decimal_notMem n (by decide) (e ▸ hc)
    have hpl : c ≠ '+' := fun e => decimal_notMem n (by decide) (e ▸ hc)
    rw [hd] at hp
    simp [Atoi, hm, hpl, hp, h]

theorem Atoi_neg {bits : Nat} {s : Str} {v : Int} (h : Atoi bits s = some v) (hv : v < 0) :
    ∃ ds, s = '-' :: ds := by
  cases s with
  | nil => simp [Atoi] at h
  | cons c cs =>
    by_cases hc : c = '-'
    · exact ⟨cs, by rw [hc]⟩
    · exfalso
      unfold Atoi at h
      simp only [hc, decide_False, false_or] at h
      split at h
      · simp at h
      · split at h
        · simp at h
        · simp only [Bool.false_eq_true, if_false] at h
          split at h
          · simp only [Option.some.injEq] at h
            omega
          · simp at h

theorem Atoi_minus_some {bits : Nat} {ds : Str} {v : Int}
    (h : Atoi bits ('-' :: ds) = some v) :
    ∃ n, parseDigits ds 0 = some n ∧ n ≤ 2 ^ (bits - 1) ∧ v = -(n : Int) := by
  cases ds with
  | nil => simp [Atoi] at h
  | cons d ds' =>
    cases hp : parseDigits (d :: ds') 0 with
    | none => simp [Atoi, hp] at h
    | some n =>
      by_cases hle : n ≤ 2 ^ (bits - 1)
      · simp [Atoi, hp, hle] at h
        exact ⟨n, rfl, hle, h.symm⟩
      · simp [Atoi, hp, hle] at h

theorem Atoi_minus_getD {bits : Nat} {ds : Str} {n : Nat}
    (hp : parseDigits ds 0 = some n) (hle : n ≤ 2 ^ (bits - 1)) :
    (Atoi bits ('-' :: ds)).getD 0 = -(n : Int) := by
  cases ds with
  | nil =>
    simp only [parseDigits, Option.some.injEq] at hp
    subst hp
    simp [Atoi]
  | cons d ds' => simp [Atoi, hp, hle]

/-- What a successful call of `parseRedisURL` returns. -/
theorem parseRedisURL_success {bits : Nat} {url : Str} {r : RedisURL}
    (h : parseRedisURL bits url = some r) (he : r.err = none) :
    ∃ rest, url = redisScheme ++ rest ∧ ¬ redisScheme <:+: rest ∧
      r = { host := beforeFirst '/' (hostAndDbPart rest)
            password := passwordPart rest
            db := if '/' ∈ hostAndDbPart rest then
                    (Atoi bits (dbSegment (hostAndDbPart rest))).getD 0 else 0
            err := none } := by
  rcases parseRedisURL_cases bits url with ⟨rest, hu, hi, hr⟩ | ⟨_, msg, hr⟩
  · rw [hr] at h
    exact ⟨rest, hu, hi, (Option.some.inj h).symm⟩
  · rw [hr] at h
    have := Option.some.inj h
    rw [← this] at he
    simp at he

theorem drop_redisScheme (rest : Str) :
    (redisScheme ++ rest).drop redisScheme.length = rest := List.drop_left _ _

theorem beforeFirst_eq_nil_iff (c : Char) (s : Str) :
    beforeFirst c s = [] ↔ s = [] ∨ ∃ t, s = c :: t := by
  cases s with
  | nil => simp [beforeFirst]
  | cons x xs =>
    by_cases hx : x = c
    · simp [beforeFirst, List.takeWhile_cons, hx]
    · simp [beforeFirst, List.takeWhile_cons, hx]

theorem scheme_rest_of_occurrences {url : Str} (h1 : redisScheme <+: url)
    (h2 : occurrences redisScheme url = 1) :
    url = redisScheme ++ url.drop redisScheme.length ∧
      ¬ redisScheme <:+: url.drop redisScheme.length := by
  obtain ⟨rest, rfl⟩ := h1
  rw [drop_redisScheme]
  refine ⟨rfl, ?_⟩
  rw [occurrences_redis_leading] at h2
  exact (occurrences_zero_iff _ _).mp (by omega)

/-! ## Lemmas on the factories -/

theorem HasPrefix_false {s pre : Str} (h : ¬ pre <+: s) : HasPrefix s pre = false := by
  unfold HasPrefix
  cases hb : pre.isPrefixOf s with
  | false => rfl
  | true => exact absurd (List.isPrefixOf_iff_prefix.mp hb) h

theorem HasPrefix_true {s pre : Str} (h : pre <+: s) : HasPrefix s pre = true :=
  List.isPrefixOf_iff_prefix.mpr h

theorem Split_single_intercalate (c : Char) (s : Str) :
    [c].intercalate (Split s [c]) = s := by
  induction' hn : s.length using Nat.strong_induction_on with n ih generalizing s
  by_cases hc : c ∈ s
  · obtain ⟨a, b, rfl, hna⟩ := exists_first hc
    have hb := ih b.length (by rw [← hn]; simp; omega) b rfl
    rw [Split_single_append a b hna]
    cases hs : Split b [c] with
    | nil => exact absurd hs (Split_ne_nil _ _)
    | cons x xs =>
      rw [hs] at hb
      rw [← hb]
      simp [List.intercalate, List.intersperse]
  · rw [Split_single_notMem hc]
    simp [List.intercalate]

theorem Split_single_segment_notMem (c : Char) (s : Str) :
    ∀ x ∈ Split s [c], c ∉ x := by
  induction' hn : s.length using Nat.strong_induction_on with n ih generalizing s
  by_cases hc : c ∈ s
  · obtain ⟨a, b, rfl, hna⟩ := exists_first hc
    have hb := ih b.length (by rw [← hn]; simp; omega) b rfl
    rw [Split_single_append a b hna]
    intro x hx
    rcases List.mem_cons.mp hx with h1 | h1
    · rw [h1]; exact hna
    · exact hb x h1
  · rw [Split_single_notMem hc]
    intro x hx
    rw [List.mem_singleton.mp hx]
    exact hc

theorem memcacheScheme_ne_nil : memcacheScheme ≠ [] := by simp [memcacheScheme]

/-! ## Claims -/

/-- C1: `parseRedisURL` returns an error exactly when its argument does not
begin with `redis://` or contains `redis://` more than once; it succeeds
exactly when the argument is `redis://` followed by a text in which
`redis://` does not occur. -/
theorem parseRedisURL_error_iff (bits : Nat) (url : Str) :
    ∃ r, parseRedisURL bits url = some r ∧
      (r.err ≠ none ↔ (¬ redisScheme <+: url ∨ 2 ≤ occurrences redisScheme url)) ∧
      (r.err = none ↔ ∃ rest, url = redisScheme ++ rest ∧ ¬ redisScheme <:+: rest) := by
  rcases parseRedisURL_cases bits url with ⟨rest, rfl, hi, hr⟩ | ⟨hbad, msg, hr⟩
  · refine ⟨_, hr, ?_, ?_⟩
    · have h0 := (occurrences_zero_iff redisScheme rest).mpr hi
      simp [occurrences_redis_leading, h0]
    · simp only [true_iff]
      exact ⟨rest, rfl, hi⟩
  · refine ⟨_, hr, ?_, ?_⟩
    · simp only [ne_eq, reduceCtorEq, not_false_eq_true, true_iff]
      rcases hbad with hnp | ⟨rest, rfl, hi⟩
      · exact Or.inl hnp
      · right
        have h0 : occurrences redisScheme rest ≠ 0 :=
          fun h => (occurrences_zero_iff redisScheme rest).mp h hi
        rw [occurrences_redis_leading]
        omega
    · simp only [reduceCtorEq, false_iff]
      rintro ⟨rest, rfl, hi⟩
      rcases hbad with hnp | ⟨rest2, h2, hi2⟩
      · exact hnp (List.prefix_append _ _)
      · have := List.append_cancel_left h2
        subst this
        exact hi hi2

/-- C2: for a password `p` without `@` and without `redis://`, a host `h`
without `@` and `/`, and a natural number `n` in the range of `int`,
`parseRedisURL("redis://" ++ p ++ "@" ++ h ++ "/" ++ decimal(n))` succeeds with
host `h`, password `p` and db `n`. -/
theorem parseRedisURL_password_host_db (bits : Nat) (p h : Str) (n : Nat)
    (hp1 : '@' ∉ p) (hp2 : ¬ redisScheme <:+: p) (hh1 : '@' ∉ h) (hh2 : '/' ∉ h)
    (hn : n < 2 ^ (bits - 1)) :
    parseRedisURL bits (redisScheme ++ p ++ ['@'] ++ h ++ ['/'] ++ decimal n) =
      some { host := h, password := p, db := (n : Int), err := none } := by
  have hds : '/' ∉ decimal n := decimal_notMem n (by decide)
  have hda : '@' ∉ decimal n := decimal_notMem n (by decide)
  have hassoc : redisScheme ++ p ++ ['@'] ++ h ++ ['/'] ++ decimal n =
      redisScheme ++ (p ++ '@' :: (h ++ '/' :: decimal n)) := by simp
  have hcs : (h ++ '/' :: decimal n).count '/' = 1 := by
    simp [List.count_append, List.count_eq_zero_of_not_mem hh2,
      List.count_eq_zero_of_not_mem hds]
  have hni : ¬ redisScheme <:+: p ++ '@' :: (h ++ '/' :: decimal n) := by
    intro hi
    rcases infix_split (by decide) hi with h1 | h1
    · exact hp2 h1
    · exact redisScheme_not_infix_of_count (by omega) h1
  have hca : (p ++ '@' :: (h ++ '/' :: decimal n)).count '@' = 1 := by
    simp [List.count_append, List.count_eq_zero_of_not_mem hp1,
      List.count_eq_zero_of_not_mem hh1, List.count_eq_zero_of_not_mem hda]
  have hpw : passwordPart (p ++ '@' :: (h ++ '/' :: decimal n)) = p := by
    rw [passwordPart, if_pos hca, beforeFirst_append _ _ hp1]
  have hhd : hostAndDbPart (p ++ '@' :: (h ++ '/' :: decimal n)) = h ++ '/' :: decimal n := by
    rw [hostAndDbPart, if_pos hca, afterFirst_append _ _ hp1]
  have hmem : '/' ∈ h ++ '/' :: decimal n := by simp
  rw [hassoc, parseRedisURL_scheme_ok bits _ hni, hpw, hhd, if_pos hmem, dbSegment,
    beforeFirst_append _ _ hh2, afterFirst_append _ _ hh2, beforeFirst_notMem hds,
    Atoi_decimal bits n hn]
  rfl

theorem parseRedisURL_password_host_db_witness :
    parseRedisURL 64 "redis://secret@host/3".data =
      some { host := "host".data, password := "secret".data, db := 3, err := none } :=
  parseRedisURL_password_host_db 64 "secret".data "host".data 3
    (by decide) (by decide) (by decide) (by decide) (by norm_num)

/-- C3: for a host `h` without `@` and `/`, `parseRedisURL("redis://" ++ h)`
succeeds with host `h`, the empty password and db `0`. -/
theorem parseRedisURL_host_only (bits : Nat) (h : Str) (hh1 : '@' ∉ h) (hh2 : '/' ∉ h) :
    parseRedisURL bits (redisScheme ++ h) =
      some { host := h, password := [], db := 0, err := none } := by
  have hni : ¬ redisScheme <:+: h :=
    redisScheme_not_infix_of_count (by simp [List.count_eq_zero_of_not_mem hh2])
  have hca : ¬ h.count '@' = 1 := by simp [List.count_eq_zero_of_not_mem hh1]
  have hpw : passwordPart h = [] := by rw [passwordPart, if_neg hca]
  have hhd : hostAndDbPart h = h := by
    rw [hostAndDbPart, if_neg hca, beforeFirst_notMem hh1]
  rw [parseRedisURL_scheme_ok bits _ hni, hpw, hhd, if_neg hh2, beforeFirst_notMem hh2]

theorem parseRedisURL_host_only_witness :
    parseRedisURL 64 "redis://host".data =
      some { host := "host".data, password := [], db := 0, err := none } :=
  parseRedisURL_host_only 64 "host".data (by decide) (by decide)

/-- C4: when the url passes the scheme check, its host-and-db part contains a
`/` and the db segment is not parseable as an integer, `parseRedisURL` returns
no error: db is `0` and host is the text before the first `/`. -/
theorem parseRedisURL_db_fallback (bits : Nat) (url : Str)
    (h1 : redisScheme <+: url) (h2 : occurrences redisScheme url = 1)
    (h3 : '/' ∈ hostAndDbPart (url.drop redisScheme.length))
    (h4 : Atoi bits (dbSegment (hostAndDbPart (url.drop redisScheme.length))) = none) :
    ∃ r, parseRedisURL bits url = some r ∧ r.err = none ∧ r.db = 0 ∧
      r.host = beforeFirst '/' (hostAndDbPart (url.drop redisScheme.length)) := by
  obtain ⟨_, hi⟩ := scheme_rest_of_occurrences h1 h2
  obtain ⟨rest, rfl⟩ := h1
  rw [drop_redisScheme] at h3 h4 hi ⊢
  refine ⟨_, parseRedisURL_scheme_ok bits _ hi, rfl, ?_, rfl⟩
  simp only [if_pos h3, h4, Option.getD_none]

theorem parseRedisURL_db_fallback_witness :
    ∃ r, parseRedisURL 64 "redis://host/notanumber".data = some r ∧ r.err = none ∧ r.db = 0 ∧
      r.host = beforeFirst '/'
        (hostAndDbPart ("redis://host/notanumber".data.drop redisScheme.length)) :=
  parseRedisURL_db_fallback 64 "redis://host/notanumber".data
    (by decide) (by decide) (by decide) (by decide)

/-- C5, as stated, fails: a db segment that is a minus sign followed by digits
gives a negative db. -/
theorem parseRedisURL_db_negative :
    parseRedisURL 64 "redis://host/-5".data =
        some { host := "host".data, password := [], db := -5, err := none } ∧
      ¬ ∀ (url : Str) (r : RedisURL), parseRedisURL 64 url = some r → r.err = none → 0 ≤ r.db := by
  refine ⟨by decide, fun h => ?_⟩
  have := h "redis://host/-5".data _ (by decide : parseRedisURL 64 "redis://host/-5".data =
    some { host := "host".data, password := [], db := -5, err := none }) rfl
  exact absurd this (by decide)

/-- C5, amended: on success the returned db is negative exactly when the
host-and-db part contains a `/` and the db segment is a minus sign followed by
decimal digits whose value `n` satisfies `1 ≤ n ≤ 2^(bits-1)`, and then db is
`-n`; in every other case db is non-negative. -/
theorem parseRedisURL_db_negative_iff (bits : Nat) (url : Str) (r : RedisURL)
    (h : parseRedisURL bits url = some r) (he : r.err = none) :
    (r.db < 0 ↔
      ('/' ∈ hostAndDbPart (url.drop redisScheme.length) ∧
        ∃ ds n, dbSegment (hostAndDbPart (url.drop redisScheme.length)) = '-' :: ds ∧
          parseDigits ds 0 = some n ∧ 0 < n ∧ n ≤ 2 ^ (bits - 1))) ∧
    (∀ ds n, '/' ∈ hostAndDbPart (url.drop redisScheme.length) →
      dbSegment (hostAndDbPart (url.drop redisScheme.length)) = '-' :: ds →
      parseDigits ds 0 = some n → n ≤ 2 ^ (bits - 1) → r.db = -(n : Int)) := by
  obtain ⟨rest, rfl, _, rfl⟩ := parseRedisURL_success h he
  rw [drop_redisScheme]
  by_cases hs : '/' ∈ hostAndDbPart rest
  · simp only [if_pos hs]
    refine ⟨⟨fun hlt => ?_, ?_⟩, ?_⟩
    · cases hA : Atoi bits (dbSegment (hostAndDbPart rest)) with
      | none => simp [hA] at hlt
      | some v =>
        have hv : v < 0 := by simpa [hA] using hlt
        obtain ⟨ds, hds⟩ := Atoi_neg hA hv
        rw [hds] at hA
        obtain ⟨n, hp, hle, hvn⟩ := Atoi_minus_some hA
        exact ⟨hs, ds, n, hds, hp, by omega, hle⟩
    · rintro ⟨_, ds, n, hds, hp, hpos, hle⟩
      rw [hds, Atoi_minus_getD hp hle]
      omega
    · intro ds n _ hds hp hle
      rw [hds, Atoi_minus_getD hp hle]
  · simp only [if_neg hs]
    refine ⟨⟨fun hlt => absurd hlt (by decide), fun hr => absurd hr.1 hs⟩, ?_⟩
    intro ds n h1
    exact absurd h1 hs

theorem parseRedisURL_db_negative_iff_witness :
    parseRedisURL 64 "redis://host/-5".data =
        some { host := "host".data, password := [], db := -5, err := none } ∧
      (((-5 : Int) < 0 ↔
        ('/' ∈ hostAndDbPart ("redis://host/-5".data.drop redisScheme.length) ∧
          ∃ ds n, dbSegment (hostAndDbPart ("redis://host/-5".data.drop redisScheme.length))
              = '-' :: ds ∧ parseDigits ds 0 = some n ∧ 0 < n ∧ n ≤ 2 ^ (64 - 1))) ∧
      (∀ ds n, '/' ∈ hostAndDbPart ("redis://host/-5".data.drop redisScheme.length) →
        dbSegment (hostAndDbPart ("redis://host/-5".data.drop redisScheme.length)) = '-' :: ds →
        parseDigits ds 0 = some n → n ≤ 2 ^ (64 - 1) → (-5 : Int) = -(n : Int))) :=
  ⟨by decide, parseRedisURL_db_negative_iff 64 "redis://host/-5".data
    { host := "host".data, password := [], db := -5, err := none } (by decide) rfl⟩

/-- C6, as stated, fails: `"redis://"` is parsed with success and an empty
host. -/
theorem parseRedisURL_empty_host :
    parseRedisURL 64 "redis://".data =
        some { host := [], password := [], db := 0, err := none } ∧
      ¬ ∀ (url : Str) (r : RedisURL), parseRedisURL 64 url = some r → r.err = none → r.host ≠ [] := by
  refine ⟨by decide, fun h => ?_⟩
  exact h "redis://".data _ (by decide : parseRedisURL 64 "redis://".data =
    some { host := [], password := [], db := 0, err := none }) rfl rfl

/-- C6, amended: on success the returned host is the text of the host-and-db
part before its first `/`; it is empty exactly when the host-and-db part is
empty or begins with `/`. -/
theorem parseRedisURL_host_empty_iff (bits : Nat) (url : Str) (r : RedisURL)
    (h : parseRedisURL bits url = some r) (he : r.err = none) :
    r.host = beforeFirst '/' (hostAndDbPart (url.drop redisScheme.length)) ∧
      (r.host = [] ↔ (hostAndDbPart (url.drop redisScheme.length) = [] ∨
        ∃ t, hostAndDbPart (url.drop redisScheme.length) = '/' :: t)) := by
  obtain ⟨rest, rfl, _, rfl⟩ := parseRedisURL_success h he
  rw [drop_redisScheme]
  exact ⟨rfl, beforeFirst_eq_nil_iff _ _⟩

theorem parseRedisURL_host_empty_iff_witness :
    parseRedisURL 64 "redis://host/3".data =
        some { host := "host".data, password := [], db := 3, err := none } ∧
      ("host".data = beforeFirst '/'
          (hostAndDbPart ("redis://host/3".data.drop redisScheme.length)) ∧
        ("host".data = [] ↔
          (hostAndDbPart ("redis://host/3".data.drop redisScheme.length) = [] ∨
            ∃ t, hostAndDbPart ("redis://host/3".data.drop redisScheme.length) = '/' :: t))) :=
  ⟨by decide, parseRedisURL_host_empty_iff 64 "redis://host/3".data
    { host := "host".data, password := [], db := 3, err := none } (by decide) rfl⟩

/-- C7: when the url contains no `@` and `parseRedisURL` succeeds, the
returned password is empty; a non-empty password is always the text between
the scheme and an `@`. -/
theorem parseRedisURL_password_only_before_at (bits : Nat) (url : Str) (r : RedisURL)
    (h : parseRedisURL bits url = some r) (he : r.err = none) :
    ('@' ∉ url → r.password = []) ∧
      (r.password ≠ [] → ∃ t, url = redisScheme ++ r.password ++ '@' :: t) := by
  obtain ⟨rest, rfl, _, rfl⟩ := parseRedisURL_success h he
  constructor
  · intro hat
    have hr : '@' ∉ rest := fun hm => hat (List.mem_append_right _ hm)
    simp [passwordPart, List.count_eq_zero_of_not_mem hr]
  · intro hne
    by_cases hc : rest.count '@' = 1
    · have hm : '@' ∈ rest := List.count_pos_iff.mp (by omega)
      obtain ⟨a, b, rfl, hna⟩ := exists_first hm
      refine ⟨b, ?_⟩
      simp only [passwordPart, if_pos hc, beforeFirst_append a b hna]
      simp
    · simp [passwordPart, hc] at hne

theorem parseRedisURL_password_only_before_at_witness :
    parseRedisURL 64 "redis://host/3".data =
        some { host := "host".data, password := [], db := 3, err := none } ∧
      '@' ∉ "redis://host/3".data ∧
      (('@' ∉ "redis://host/3".data → ([] : Str) = []) ∧
        (([] : Str) ≠ [] → ∃ t, "redis://host/3".data = redisScheme ++ [] ++ '@' :: t)) :=
  ⟨by decide, by decide, parseRedisURL_password_only_before_at 64 "redis://host/3".data
    { host := "host".data, password := [], db := 3, err := none } (by decide) rfl⟩

/-- C8: on a connection string that begins with none of the prefixes a
factory recognizes, the factory returns no client and the error "Factory
failed with ..." whose message ends with the string itself; `BrokerFactory`
does so on every string that begins with `memcache://` or `mongodb://`. -/
theorem factories_unsupported {E B K : Type} (bits : Nat) (bc : BrokerCtors E B)
    (kc : BackendCtors E K) (cnf : Config E) :
    ((¬ amqpScheme <+: cnf.Broker ∧ ¬ redisScheme <+: cnf.Broker ∧
        ¬ eagerScheme <+: cnf.Broker) →
      BrokerFactory bits bc cnf = some (none, some (errBrokerFactory cnf.Broker)) ∧
        cnf.Broker <:+: errBrokerFactory cnf.Broker) ∧
    ((¬ amqpScheme <+: cnf.ResultBackend ∧ ¬ memcacheScheme <+: cnf.ResultBackend ∧
        ¬ redisScheme <+: cnf.ResultBackend ∧ ¬ mongodbScheme <+: cnf.ResultBackend ∧
        ¬ eagerScheme <+: cnf.ResultBackend) →
      BackendFactory bits kc cnf = some (none, some (errBackendFactory cnf.ResultBackend)) ∧
        cnf.ResultBackend <:+: errBackendFactory cnf.ResultBackend) ∧
    ((memcacheScheme <+: cnf.Broker ∨ mongodbScheme <+: cnf.Broker) →
      BrokerFactory bits bc cnf = some (none, some (errBrokerFactory cnf.Broker)) ∧
        cnf.Broker <:+: errBrokerFactory cnf.Broker) := by
  have hbroker : HasPrefix cnf.Broker amqpScheme = false →
      HasPrefix cnf.Broker redisScheme = false → HasPrefix cnf.Broker eagerScheme = false →
      BrokerFactory bits bc cnf = some (none, some (errBrokerFactory cnf.Broker)) ∧
        cnf.Broker <:+: errBrokerFactory cnf.Broker := by
    intro h1 h2 h3
    refine ⟨by simp [BrokerFactory, h1, h2, h3], ?_⟩
    exact (List.suffix_append _ _).isInfix
  refine ⟨?_, ?_, ?_⟩
  · rintro ⟨h1, h2, h3⟩
    exact hbroker (HasPrefix_false h1) (HasPrefix_false h2) (HasPrefix_false h3)
  · rintro ⟨h1, h2, h3, h4, h5⟩
    refine ⟨?_, (List.suffix_append _ _).isInfix⟩
    simp [BackendFactory, HasPrefix_false h1, HasPrefix_false h2, HasPrefix_false h3,
      HasPrefix_false h4, HasPrefix_false h5]
  · rintro (⟨t, ht⟩ | ⟨t, ht⟩)
    · apply hbroker <;> rw [← ht] <;>
        simp [HasPrefix, memcacheScheme, amqpScheme, redisScheme, eagerScheme, List.isPrefixOf]
    · apply hbroker <;> rw [← ht] <;>
        simp [HasPrefix, mongodbScheme, amqpScheme, redisScheme, eagerScheme, List.isPrefixOf]

theorem factories_unsupported_witness :
    (BrokerFactory 64 termBrokers (mkConfig "notascheme://x".data "notascheme://x".data) =
        some (none, some (errBrokerFactory "notascheme://x".data)) ∧
      "notascheme://x".data <:+: errBrokerFactory "notascheme://x".data) ∧
    (BackendFactory 64 termBackends (mkConfig "notascheme://x".data "notascheme://x".data) =
        some (none, some (errBackendFactory "notascheme://x".data)) ∧
      "notascheme://x".data <:+: errBackendFactory "notascheme://x".data) ∧
    (BrokerFactory 64 termBrokers (mkConfig "memcache://a:11211".data []) =
        some (none, some (errBrokerFactory "memcache://a:11211".data)) ∧
      "memcache://a:11211".data <:+: errBrokerFactory "memcache://a:11211".data) :=
  ⟨(factories_unsupported 64 termBrokers termBackends
      (mkConfig "notascheme://x".data "notascheme://x".data)).1 (by decide),
    (factories_unsupported 64 termBrokers termBackends
      (mkConfig "notascheme://x".data "notascheme://x".data)).2.1 (by decide),
    (factories_unsupported 64 termBrokers termBackends
      (mkConfig "memcache://a:11211".data [])).2.2 (by decide)⟩

/-- C9: when the broker string begins with `redis://`, `BrokerFactory` returns
the Redis broker built from the successful result of `parseRedisURL` if
`redis://` occurs exactly once, and otherwise (it occurs at least twice) no
broker and the error "Redis broker connection string should be in format ..."
ending with the string itself. -/
theorem BrokerFactory_redis {E B : Type} (bits : Nat) (bc : BrokerCtors E B) (cnf : Config E)
    (h : redisScheme <+: cnf.Broker) :
    (occurrences redisScheme cnf.Broker = 1 →
      ∃ r, parseRedisURL bits cnf.Broker = some r ∧ r.err = none ∧
        BrokerFactory bits bc cnf =
          some (some (bc.NewRedisBroker cnf r.host r.password r.db), none)) ∧
    (occurrences redisScheme cnf.Broker ≠ 1 →
      2 ≤ occurrences redisScheme cnf.Broker ∧
        BrokerFactory bits bc cnf = some (none, some (errRedisBroker cnf.Broker)) ∧
        cnf.Broker <:+: errRedisBroker cnf.Broker) := by
  have hamqp : HasPrefix cnf.Broker amqpScheme = false := by
    obtain ⟨t, ht⟩ := h
    rw [← ht]
    simp [HasPrefix, amqpScheme, redisScheme, List.isPrefixOf]
  have hredis := HasPrefix_true h
  constructor
  · intro h1
    obtain ⟨hu, hi⟩ := scheme_rest_of_occurrences h h1
    have hok := parseRedisURL_scheme_ok bits _ hi
    rw [← hu] at hok
    have hsp : Split cnf.Broker redisScheme = [[], cnf.Broker.drop redisScheme.length] := by
      rw [hu, drop_redisScheme, Split_leading redisScheme_ne_nil,
        Split_of_none ((Index_none_iff _ _).mpr hi)]
    refine ⟨_, hok, rfl, ?_⟩
    simp [BrokerFactory, hamqp, hredis, hsp, hok]
  · intro h1
    obtain ⟨rest, hrest⟩ := h
    have hocc : occurrences redisScheme rest ≠ 0 := by
      rw [← hrest, occurrences_redis_leading] at h1
      omega
    have hi : redisScheme <:+: rest := by
      by_contra hc
      exact hocc ((occurrences_zero_iff _ _).mpr hc)
    obtain ⟨m, hm⟩ : ∃ m, Index rest redisScheme = some m := by
      cases hI : Index rest redisScheme with
      | none => exact absurd hi ((Index_none_iff _ _).mp hI)
      | some m => exact ⟨m, rfl⟩
    have hlen := Split_cut_length redisScheme_ne_nil hm
    have hne : ¬ (Split rest redisScheme).length + 1 = 2 := by omega
    have hsp : (Split cnf.Broker redisScheme).length = (Split rest redisScheme).length + 1 := by
      rw [← hrest, Split_leading redisScheme_ne_nil, List.length_cons]
    refine ⟨?_, ?_, (List.suffix_append _ _).isInfix⟩
    · rw [← hrest, occurrences_redis_leading]
      omega
    · simp [BrokerFactory, hamqp, hredis, hsp, hne]

theorem BrokerFactory_redis_witness :
    (∃ r, parseRedisURL 64 "redis://secret@host/3".data = some r ∧ r.err = none ∧
        BrokerFactory 64 termBrokers (mkConfig "redis://secret@host/3".data []) =
          some (some (BrokerTerm.redis r.host r.password r.db), none)) ∧
    (2 ≤ occurrences redisScheme "redis://a/redis://b".data ∧
        BrokerFactory 64 termBrokers (mkConfig "redis://a/redis://b".data []) =
          some (none, some (errRedisBroker "redis://a/redis://b".data)) ∧
        "redis://a/redis://b".data <:+: errRedisBroker "redis://a/redis://b".data) :=
  ⟨(BrokerFactory_redis 64 termBrokers (mkConfig "redis://secret@host/3".data [])
      (by decide)).1 (by decide),
    (BrokerFactory_redis 64 termBrokers (mkConfig "redis://a/redis://b".data [])
      (by decide)).2 (by decide)⟩

/-- C10: when the result-backend string is `memcache://` followed by `rest`,
`BackendFactory` returns the Memcache backend built with the server list
`rest` split at the commas (joined with commas the list gives back `rest`, it
has one more element than `rest` has commas, and no element contains a comma)
if `memcache://` does not occur in `rest`, and otherwise no backend and the
error "Memcache result backend connection string should be in format ...". -/
theorem BackendFactory_memcache {E K : Type} (bits : Nat) (kc : BackendCtors E K)
    (cnf : Config E) (rest : Str) (h : cnf.ResultBackend = memcacheScheme ++ rest) :
    (¬ memcacheScheme <:+: rest →
      BackendFactory bits kc cnf =
          some (some (kc.NewMemcacheBackend cnf (Split rest [','])), none) ∧
        [','].intercalate (Split rest [',']) = rest ∧
        (Split rest [',']).length = rest.count ',' + 1 ∧
        ∀ x ∈ Split rest [','], ',' ∉ x) ∧
    (memcacheScheme <:+: rest →
      BackendFactory bits kc cnf = some (none, some (errMemcacheFormat cnf.ResultBackend))) := by
  have hamqp : HasPrefix cnf.ResultBackend amqpScheme = false := by
    rw [h]
    simp [HasPrefix, amqpScheme, memcacheScheme, List.isPrefixOf]
  have hmem : HasPrefix cnf.ResultBackend memcacheScheme = true :=
    HasPrefix_true (h ▸ List.prefix_append _ _)
  have hsp : Split cnf.ResultBackend memcacheScheme = [] :: Split rest memcacheScheme := by
    rw [h, Split_leading memcacheScheme_ne_nil]
  constructor
  · intro hi
    refine ⟨?_, Split_single_intercalate _ _, Split_single_length _ _,
      Split_single_segment_notMem _ _⟩
    rw [Split_of_none ((Index_none_iff _ _).mpr hi)] at hsp
    simp [BackendFactory, hamqp, hmem, hsp]
  · intro hi
    obtain ⟨m, hm⟩ : ∃ m, Index rest memcacheScheme = some m := by
      cases hI : Index rest memcacheScheme with
      | none => exact absurd hi ((Index_none_iff _ _).mp hI)
      | some m => exact ⟨m, rfl⟩
    have hlen := Split_cut_length memcacheScheme_ne_nil hm
    have hne : ¬ (Split rest memcacheScheme).length + 1 = 2 := by omega
    simp [BackendFactory, hamqp, hmem, hsp, hne]

theorem BackendFactory_memcache_witness :
    (BackendFactory 64 termBackends (mkConfig [] "memcache://a:11211,b:11211".data) =
        some (some (BackendTerm.memcache ["a:11211".data, "b:11211".data]), none)) ∧
    (BackendFactory 64 termBackends (mkConfig [] "memcache://a,memcache://b".data) =
        some (none, some (errMemcacheFormat "memcache://a,memcache://b".data))) :=
  ⟨((BackendFactory_memcache 64 termBackends
      (mkConfig [] "memcache://a:11211,b:11211".data) "a:11211,b:11211".data rfl).1
      (by decide)).1,
    (BackendFactory_memcache 64 termBackends
      (mkConfig [] "memcache://a,memcache://b".data) "a,memcache://b".data rfl).2 (by decide)⟩

/-! ## Further lemmas on the factories -/

theorem eager_not_others {s : Str} (h : eagerScheme <+: s) :
    HasPrefix s amqpScheme = false ∧ HasPrefix s memcacheScheme = false ∧
      HasPrefix s redisScheme = false ∧ HasPrefix s mongodbScheme = false ∧
      HasPrefix s eagerScheme = true := by
  obtain ⟨t, rfl⟩ := h
  simp [HasPrefix, eagerScheme, amqpScheme, memcacheScheme, redisScheme, mongodbScheme,
    List.isPrefixOf]

theorem redis_not_others {s : Str} (h : redisScheme <+: s) :
    HasPrefix s amqpScheme = false ∧ HasPrefix s memcacheScheme = false ∧
      HasPrefix s redisScheme = true := by
  obtain ⟨t, rfl⟩ := h
  simp [HasPrefix, amqpScheme, memcacheScheme, redisScheme, List.isPrefixOf]

theorem mongodb_not_others {s : Str} (h : mongodbScheme <+: s) :
    HasPrefix s amqpScheme = false ∧ HasPrefix s memcacheScheme = false ∧
      HasPrefix s redisScheme = false ∧ HasPrefix s mongodbScheme = true := by
  obtain ⟨t, rfl⟩ := h
  simp [HasPrefix, amqpScheme, memcacheScheme, redisScheme, mongodbScheme, List.isPrefixOf]

theorem HasPrefix_iff (s pre : Str) : HasPrefix s pre = true ↔ pre <+: s :=
  List.isPrefixOf_iff_prefix

/-- What `BrokerFactory` returns on a string that begins with `redis://`. -/
theorem BrokerFactory_redis_eq {E B : Type} (bits : Nat) (bc : BrokerCtors E B)
    (cnf : Config E) (rest : Str) (h : cnf.Broker = redisScheme ++ rest) :
    BrokerFactory bits bc cnf =
      if redisScheme <:+: rest then some (none, some (errRedisBroker cnf.Broker))
      else some (some (bc.NewRedisBroker cnf (beforeFirst '/' (hostAndDbPart rest))
        (passwordPart rest)
        (if '/' ∈ hostAndDbPart rest then
          (Atoi bits (dbSegment (hostAndDbPart rest))).getD 0 else 0)), none) := by
  obtain ⟨h1, _, h3⟩ := redis_not_others (s := cnf.Broker) (h ▸ List.prefix_append _ _)
  have hsp : Split cnf.Broker redisScheme = [] :: Split rest redisScheme := by
    rw [h, Split_leading redisScheme_ne_nil]
  by_cases hi : redisScheme <:+: rest
  · obtain ⟨m, hm⟩ : ∃ m, Index rest redisScheme = some m := by
      cases hI : Index rest redisScheme with
      | none => exact absurd hi ((Index_none_iff _ _).mp hI)
      | some m => exact ⟨m, rfl⟩
    have hlen := Split_cut_length redisScheme_ne_nil hm
    have hne : ¬ (Split rest redisScheme).length + 1 = 2 := by omega
    simp [BrokerFactory, h1, h3, hsp, hne, hi]
  · have hok := parseRedisURL_scheme_ok bits rest hi
    rw [← h] at hok
    rw [Split_of_none ((Index_none_iff _ _).mpr hi)] at hsp
    simp [BrokerFactory, h1, h3, hsp, hok, hi]

/-- What `BackendFactory` returns on a string that begins with `redis://`. -/
theorem BackendFactory_redis_eq {E K : Type} (bits : Nat) (kc : BackendCtors E K)
    (cnf : Config E) (rest : Str) (h : cnf.ResultBackend = redisScheme ++ rest) :
    BackendFactory bits kc cnf =
      if redisScheme <:+: rest then some (none, some (errRedisFormat cnf.ResultBackend))
      else some (some (kc.NewRedisBackend cnf (beforeFirst '/' (hostAndDbPart rest))
        (passwordPart rest)
        (if '/' ∈ hostAndDbPart rest then
          (Atoi bits (dbSegment (hostAndDbPart rest))).getD 0 else 0)), none) := by
  obtain ⟨h1, h2, h3⟩ := redis_not_others (s := cnf.ResultBackend) (h ▸ List.prefix_append _ _)
  by_cases hi : redisScheme <:+: rest
  · have hrep := parseRedisURL_repeated bits rest hi
    rw [← h] at hrep
    simp [BackendFactory, h1, h2, h3, hrep, hi]
  · have hok := parseRedisURL_scheme_ok bits rest hi
    rw [← h] at hok
    simp [BackendFactory, h1, h2, h3, hok, hi]

/-- What `BackendFactory` returns on a string that begins with `memcache://`. -/
theorem BackendFactory_memcache_eq {E K : Type} (bits : Nat) (kc : BackendCtors E K)
    (cnf : Config E) (rest : Str) (h : cnf.ResultBackend = memcacheScheme ++ rest) :
    BackendFactory bits kc cnf =
      if memcacheScheme <:+: rest then some (none, some (errMemcacheFormat cnf.ResultBackend))
      else some (some (kc.NewMemcacheBackend cnf (Split rest [','])), none) := by
  have hamqp : HasPrefix cnf.ResultBackend amqpScheme = false := by
    rw [h]
    simp [HasPrefix, amqpScheme, memcacheScheme, List.isPrefixOf]
  have hmem : HasPrefix cnf.ResultBackend memcacheScheme = true :=
    HasPrefix_true (h ▸ List.prefix_append _ _)
  have hsp : Split cnf.ResultBackend memcacheScheme = [] :: Split rest memcacheScheme := by
    rw [h, Split_leading memcacheScheme_ne_nil]
  by_cases hi : memcacheScheme <:+: rest
  · obtain ⟨m, hm⟩ : ∃ m, Index rest memcacheScheme = some m := by
      cases hI : Index rest memcacheScheme with
      | none => exact absurd hi ((Index_none_iff _ _).mp hI)
      | some m => exact ⟨m, rfl⟩
    have hlen := Split_cut_length memcacheScheme_ne_nil hm
    have hne : ¬ (Split rest memcacheScheme).length + 1 = 2 := by omega
    simp [BackendFactory, hamqp, hmem, hsp, hne, hi]
  · rw [Split_of_none ((Index_none_iff _ _).mpr hi)] at hsp
    simp [BackendFactory, hamqp, hmem, hsp, hi]

/-! ## Claims, continued -/

/-- C11: when `BackendFactory` succeeds on a string `memcache://` followed by
`rest`, the server list it hands to `NewMemcacheBackend` is `rest` split at the
commas, which has at least one element; for `rest` empty it is the list whose
only element is the empty string. -/
theorem BackendFactory_memcache_servers_nonempty {E K : Type} (bits : Nat)
    (kc : BackendCtors E K) (cnf : Config E) (rest : Str) (o : Option K)
    (h : cnf.ResultBackend = memcacheScheme ++ rest)
    (hs : BackendFactory bits kc cnf = some (o, none)) :
    o = some (kc.NewMemcacheBackend cnf (Split rest [','])) ∧
      1 ≤ (Split rest [',']).length ∧
      (rest = [] → Split rest [','] = [[]]) := by
  rw [BackendFactory_memcache_eq bits kc cnf rest h] at hs
  refine ⟨?_, ?_, ?_⟩
  · by_cases hi : memcacheScheme <:+: rest
    · simp [hi] at hs
    · simp only [if_neg hi, Option.some.injEq, Prod.mk.injEq, and_true] at hs
      exact hs.symm
  · rw [Split_single_length]
    omega
  · intro hr
    rw [hr]
    rfl

theorem BackendFactory_memcache_servers_nonempty_witness :
    BackendFactory 64 termBackends (mkConfig [] "memcache://".data) =
        some (some (BackendTerm.memcache [[]]), none) ∧
      (some (BackendTerm.memcache [[]]) =
          some (termBackends.NewMemcacheBackend (mkConfig [] "memcache://".data)
            (Split [] [','])) ∧
        1 ≤ (Split [] [',']).length ∧
        (([] : Str) = [] → Split [] [','] = [[]])) :=
  ⟨by decide, BackendFactory_memcache_servers_nonempty 64 termBackends
    (mkConfig [] "memcache://".data) [] (some (BackendTerm.memcache [[]])) rfl (by decide)⟩

/-- C12: on every string that has `eager` as a prefix, `BrokerFactory` returns
the Eager broker and `BackendFactory` returns the Eager backend, both without
an error, whatever follows the prefix and whatever else the configuration
holds. -/
theorem factories_eager {E B K : Type} (bits : Nat) (bc : BrokerCtors E B)
    (kc : BackendCtors E K) (cnf : Config E) :
    (eagerScheme <+: cnf.Broker →
      BrokerFactory bits bc cnf = some (some bc.NewEagerBroker, none)) ∧
    (eagerScheme <+: cnf.ResultBackend →
      BackendFactory bits kc cnf = some (some kc.NewEagerBackend, none)) := by
  constructor
  · intro h
    obtain ⟨h1, _, h3, _, h5⟩ := eager_not_others h
    simp [BrokerFactory, h1, h3, h5]
  · intro h
    obtain ⟨h1, h2, h3, h4, h5⟩ := eager_not_others h
    simp [BackendFactory, h1, h2, h3, h4, h5]

theorem factories_eager_witness :
    BrokerFactory 64 termBrokers (mkConfig "eagerly".data "eager://x".data) =
        some (some BrokerTerm.eager, none) ∧
      BackendFactory 64 termBackends (mkConfig "eagerly".data "eager://x".data) =
        some (some BackendTerm.eager, none) :=
  ⟨(factories_eager 64 termBrokers termBackends
      (mkConfig "eagerly".data "eager://x".data)).1 (by decide),
    (factories_eager 64 termBrokers termBackends
      (mkConfig "eagerly".data "eager://x".data)).2 (by decide)⟩

/-- C13: every error that `BrokerFactory` returns, and every error that
`BackendFactory` returns outside its `mongodb://` branch, has a message that
contains the connection string; so has every error of `parseRedisURL` on a
string that begins with `redis://`, which is what `BackendFactory` passes up. -/
theorem factories_error_names_string {E B K : Type} (bits : Nat) (bc : BrokerCtors E B)
    (kc : BackendCtors E K) (cnf : Config E) :
    (∀ o msg, BrokerFactory bits bc cnf = some (o, some msg) → cnf.Broker <:+: msg) ∧
    (¬ mongodbScheme <+: cnf.ResultBackend →
      ∀ o msg, BackendFactory bits kc cnf = some (o, some msg) →
        cnf.ResultBackend <:+: msg) ∧
    (redisScheme <+: cnf.ResultBackend →
      ∀ r msg, parseRedisURL bits cnf.ResultBackend = some r → r.err = some msg →
        cnf.ResultBackend <:+: msg) := by
  refine ⟨?_, ?_, ?_⟩
  · intro o msg h
    by_cases hr : redisScheme <+: cnf.Broker
    · obtain ⟨rest, hrest⟩ := hr
      rw [BrokerFactory_redis_eq bits bc cnf rest hrest.symm] at h
      by_cases hi : redisScheme <:+: rest
      · simp only [if_pos hi, Option.some.injEq, Prod.mk.injEq] at h
        rw [← h.2]
        exact (List.suffix_append _ _).isInfix
      · simp [hi] at h
    · have h2 := HasPrefix_false hr
      cases h1 : HasPrefix cnf.Broker amqpScheme <;>
        cases h3 : HasPrefix cnf.Broker eagerScheme <;>
        simp [BrokerFactory, h1, h2, h3] at h
      rw [← h.2]
      exact (List.suffix_append _ _).isInfix
  · intro hm o msg h
    by_cases hmc : memcacheScheme <+: cnf.ResultBackend
    · obtain ⟨rest, hrest⟩ := hmc
      rw [BackendFactory_memcache_eq bits kc cnf rest hrest.symm] at h
      by_cases hi : memcacheScheme <:+: rest
      · simp only [if_pos hi, Option.some.injEq, Prod.mk.injEq] at h
        rw [← h.2]
        exact (List.suffix_append _ _).isInfix
      · simp [hi] at h
    · by_cases hr : redisScheme <+: cnf.ResultBackend
      · obtain ⟨rest, hrest⟩ := hr
        rw [BackendFactory_redis_eq bits kc cnf rest hrest.symm] at h
        by_cases hi : redisScheme <:+: rest
        · simp only [if_pos hi, Option.some.injEq, Prod.mk.injEq] at h
          rw [← h.2]
          exact (List.suffix_append _ _).isInfix
        · simp [hi] at h
      · have h2 := HasPrefix_false hmc
        have h3 := HasPrefix_false hr
        have h4 := HasPrefix_false hm
        cases h1 : HasPrefix cnf.ResultBackend amqpScheme <;>
          cases h5 : HasPrefix cnf.ResultBackend eagerScheme <;>
          simp [BackendFactory, h1, h2, h3, h4, h5] at h
        rw [← h.2]
        exact (List.suffix_append _ _).isInfix
  · rintro ⟨rest, hrest⟩ r msg hp he
    by_cases hi : redisScheme <:+: rest
    · have hrep := parseRedisURL_repeated bits rest hi
      rw [hrest, hp] at hrep
      have hr := Option.some.inj hrep
      rw [hr] at he
      simp only [Option.some.injEq] at he
      rw [← he, ← hrest]
      exact (List.suffix_append _ _).isInfix
    · have hok := parseRedisURL_scheme_ok bits rest hi
      rw [hrest, hp] at hok
      have hr := Option.some.inj hok
      rw [hr] at he
      simp at he

theorem factories_error_names_string_witness :
    "redis://a/redis://b".data <:+: errRedisBroker "redis://a/redis://b".data ∧
      "redis://a/redis://b".data <:+: errRedisFormat "redis://a/redis://b".data :=
  ⟨(factories_error_names_string 64 termBrokers termBackends
      (mkConfig "redis://a/redis://b".data "redis://a/redis://b".data)).1 none
      (errRedisBroker "redis://a/redis://b".data) (by decide),
    (factories_error_names_string 64 termBrokers termBackends
      (mkConfig "redis://a/redis://b".data "redis://a/redis://b".data)).2.1 (by decide) none
      (errRedisFormat "redis://a/redis://b".data) (by decide)⟩

/-- C14, as stated, fails: on `"http://host"`, which does not begin with
`redis://`, the error of `parseRedisURL` is the fixed message "No redis scheme
found", which does not contain the string. -/
theorem parseRedisURL_no_scheme_message :
    parseRedisURL 64 "http://host".data =
        some { host := [], password := [], db := 0, err := some errNoRedisScheme } ∧
      ¬ "http://host".data <:+: errNoRedisScheme := by
  constructor <;> decide

/-- C14, amended: when `parseRedisURL` fails on a string that begins with
`redis://` (the only strings that `BrokerFactory` and `BackendFactory` pass to
it) or on the empty string, the error is the format message, which ends with
the string and so includes it; when it fails on any other string the error is
the fixed message "No redis scheme found". -/
theorem parseRedisURL_error_message (bits : Nat) (url : Str) (r : RedisURL) (msg : Str)
    (h : parseRedisURL bits url = some r) (he : r.err = some msg) :
    ((redisScheme <+: url ∨ url = []) → msg = errRedisFormat url ∧ url <:+: msg) ∧
    ((¬ redisScheme <+: url ∧ url ≠ []) → msg = errNoRedisScheme) := by
  have hfmt : msg = errRedisFormat url → msg = errRedisFormat url ∧ url <:+: msg := by
    intro e
    refine ⟨e, ?_⟩
    rw [e]
    exact (List.suffix_append _ _).isInfix
  by_cases hp : redisScheme <+: url
  · obtain ⟨rest, rfl⟩ := hp
    have hmsg : msg = errRedisFormat (redisScheme ++ rest) := by
      by_cases hi : redisScheme <:+: rest
      · have hrep := parseRedisURL_repeated bits rest hi
        rw [h] at hrep
        rw [Option.some.inj hrep] at he
        exact (Option.some.inj he).symm
      · have hok := parseRedisURL_scheme_ok bits rest hi
        rw [h] at hok
        rw [Option.some.inj hok] at he
        simp at he
    exact ⟨fun _ => hfmt hmsg, fun hn => absurd (List.prefix_append _ _) hn.1⟩
  · have hno := parseRedisURL_no_scheme bits url hp
    rw [h] at hno
    rw [Option.some.inj hno] at he
    have he2 := (Option.some.inj he).symm
    constructor
    · rintro (h1 | h1)
      · exact absurd h1 hp
      · rw [if_pos h1] at he2
        exact hfmt he2
    · rintro ⟨_, h2⟩
      rw [if_neg h2] at he2
      exact he2

theorem parseRedisURL_error_message_witness :
    parseRedisURL 64 "redis://a/redis://b".data =
        some { host := [], password := [], db := 0
               err := some (errRedisFormat "redis://a/redis://b".data) } ∧
      (((redisScheme <+: "redis://a/redis://b".data ∨ "redis://a/redis://b".data = []) →
          errRedisFormat "redis://a/redis://b".data = errRedisFormat "redis://a/redis://b".data ∧
            "redis://a/redis://b".data <:+: errRedisFormat "redis://a/redis://b".data) ∧
        ((¬ redisScheme <+: "redis://a/redis://b".data ∧ "redis://a/redis://b".data ≠ []) →
          errRedisFormat "redis://a/redis://b".data = errNoRedisScheme)) :=
  ⟨by decide, parseRedisURL_error_message 64 "redis://a/redis://b".data
    { host := [], password := [], db := 0
      err := some (errRedisFormat "redis://a/redis://b".data) }
    (errRedisFormat "redis://a/redis://b".data) (by decide) rfl⟩

/-- C15: on a string that begins with `mongodb://`, `BackendFactory` returns
the very pair that `NewMongodbBackend` returns; in every other case an error
of `BackendFactory`, and in every case an error of `BrokerFactory`, comes with
no client and is one of the messages that the factory formats itself. -/
theorem BackendFactory_mongodb {E B K : Type} (bits : Nat) (bc : BrokerCtors E B)
    (kc : BackendCtors E K) (cnf : Config E) :
    (mongodbScheme <+: cnf.ResultBackend →
      BackendFactory bits kc cnf = some (kc.NewMongodbBackend cnf)) ∧
    (¬ mongodbScheme <+: cnf.ResultBackend →
      ∀ o msg, BackendFactory bits kc cnf = some (o, some msg) →
        o = none ∧ (msg = errMemcacheFormat cnf.ResultBackend ∨
          msg = errRedisFormat cnf.ResultBackend ∨
          msg = errBackendFactory cnf.ResultBackend)) ∧
    (∀ o msg, BrokerFactory bits bc cnf = some (o, some msg) →
      o = none ∧ (msg = errRedisBroker cnf.Broker ∨ msg = errBrokerFactory cnf.Broker)) := by
  refine ⟨?_, ?_, ?_⟩
  · intro h
    obtain ⟨h1, h2, h3, h4⟩ := mongodb_not_others h
    simp [BackendFactory, h1, h2, h3, h4]
  · intro hm o msg h
    by_cases hmc : memcacheScheme <+: cnf.ResultBackend
    · obtain ⟨rest, hrest⟩ := hmc
      rw [BackendFactory_memcache_eq bits kc cnf rest hrest.symm] at h
      by_cases hi : memcacheScheme <:+: rest
      · simp only [if_pos hi, Option.some.injEq, Prod.mk.injEq] at h
        exact ⟨h.1.symm, Or.inl h.2.symm⟩
      · simp [hi] at h
    · by_cases hr : redisScheme <+: cnf.ResultBackend
      · obtain ⟨rest, hrest⟩ := hr
        rw [BackendFactory_redis_eq bits kc cnf rest hrest.symm] at h
        by_cases hi : redisScheme <:+: rest
        · simp only [if_pos hi, Option.some.injEq, Prod.mk.injEq] at h
          exact ⟨h.1.symm, Or.inr (Or.inl h.2.symm)⟩
        · simp [hi] at h
      · have h2 := HasPrefix_false hmc
        have h3 := HasPrefix_false hr
        have h4 := HasPrefix_false hm
        cases h1 : HasPrefix cnf.ResultBackend amqpScheme <;>
          cases h5 : HasPrefix cnf.ResultBackend eagerScheme <;>
          simp [BackendFactory, h1, h2, h3, h4, h5] at h
        exact ⟨h.1.symm, Or.inr (Or.inr h.2.symm)⟩
  · intro o msg h
    by_cases hr : redisScheme <+: cnf.Broker
    · obtain ⟨rest, hrest⟩ := hr
      rw [BrokerFactory_redis_eq bits bc cnf rest hrest.symm] at h
      by_cases hi : redisScheme <:+: rest
      · simp only [if_pos hi, Option.some.injEq, Prod.mk.injEq] at h
        exact ⟨h.1.symm, Or.inl h.2.symm⟩
      · simp [hi] at h
    · have h2 := HasPrefix_false hr
      cases h1 : HasPrefix cnf.Broker amqpScheme <;>
        cases h3 : HasPrefix cnf.Broker eagerScheme <;>
        simp [BrokerFactory, h1, h2, h3] at h
      exact ⟨h.1.symm, Or.inr h.2.symm⟩

theorem BackendFactory_mongodb_witness :
    BackendFactory 64 termBackends (mkConfig [] "mongodb://localhost:27017".data) =
      some (termBackends.NewMongodbBackend (mkConfig [] "mongodb://localhost:27017".data)) :=
  (BackendFactory_mongodb 64 termBrokers termBackends
    (mkConfig [] "mongodb://localhost:27017".data)).1 (by decide)

/-! ## Lemmas on the dispatch -/

theorem find_perm_of_unique {α : Type} {p : α → Bool} {l1 l2 : List α}
    (hperm : l1.Perm l2) (huniq : ∀ a b, p a = true → p b = true → a = b) :
    l1.find? p = l2.find? p := by
  cases h1 : l1.find? p with
  | none =>
    cases h2 : l2.find? p with
    | none => rfl
    | some y =>
      have hy := List.find?_some h2
      have hmem := hperm.mem_iff.mpr (List.mem_of_find?_eq_some h2)
      have := List.find?_eq_none.mp h1 y hmem
      exact absurd hy this
  | some x =>
    have hx := List.find?_some h1
    cases h2 : l2.find? p with
    | none =>
      have hmem := hperm.mem_iff.mp (List.mem_of_find?_eq_some h1)
      have := List.find?_eq_none.mp h2 x hmem
      exact absurd hx this
    | some y =>
      have hy := List.find?_some h2
      rw [huniq x y hx hy]

theorem scheme_unique (s : Str) (k1 k2 : Scheme)
    (h1 : HasPrefix s (schemeLit k1) = true) (h2 : HasPrefix s (schemeLit k2) = true) :
    k1 = k2 := by
  rcases s with _ | ⟨c1, _ | ⟨c2, s⟩⟩ <;> cases k1 <;> cases k2 <;>
    simp [HasPrefix, schemeLit, amqpScheme, memcacheScheme, redisScheme, mongodbScheme,
      eagerScheme, List.isPrefixOf] at h1 h2 ⊢ <;>
    (obtain ⟨rfl, h1'⟩ := h1; simp at h2; try (obtain ⟨rfl, _⟩ := h1'; simp at h2))

theorem BrokerFactory_eq_action {E B : Type} (bits : Nat) (bc : BrokerCtors E B)
    (cnf : Config E) :
    BrokerFactory bits bc cnf =
      brokerAction bits bc cnf
        (selectScheme [Scheme.amqp, Scheme.redis, Scheme.eager] cnf.Broker) := by
  cases h1 : HasPrefix cnf.Broker amqpScheme <;>
    cases h2 : HasPrefix cnf.Broker redisScheme <;>
    cases h3 : HasPrefix cnf.Broker eagerScheme <;>
    simp [BrokerFactory, brokerAction, selectScheme, List.find?, schemeLit, h1, h2, h3]

theorem BackendFactory_eq_action {E K : Type} (bits : Nat) (kc : BackendCtors E K)
    (cnf : Config E) :
    BackendFactory bits kc cnf =
      backendAction bits kc cnf
        (selectScheme [Scheme.amqp, Scheme.memcache, Scheme.redis, Scheme.mongodb,
          Scheme.eager] cnf.ResultBackend) := by
  cases h1 : HasPrefix cnf.ResultBackend amqpScheme <;>
    cases h2 : HasPrefix cnf.ResultBackend memcacheScheme <;>
    cases h3 : HasPrefix cnf.ResultBackend redisScheme <;>
    cases h4 : HasPrefix cnf.ResultBackend mongodbScheme <;>
    cases h5 : HasPrefix cnf.ResultBackend eagerScheme <;>
    simp [BackendFactory, backendAction, selectScheme, List.find?, schemeLit, h1, h2, h3, h4, h5]

theorem notMem_beforeFirst (c : Char) (s : Str) : c ∉ beforeFirst c s := by
  intro h
  have := List.mem_takeWhile_imp h
  simp at this

theorem mem_of_mem_beforeFirst {c x : Char} {s : Str} (h : x ∈ beforeFirst c s) : x ∈ s :=
  (List.takeWhile_sublist _).subset h

theorem notMem_hostAndDbPart (rest : Str) : '@' ∉ hostAndDbPart rest := by
  unfold hostAndDbPart
  by_cases hc : rest.count '@' = 1
  · rw [if_pos hc]
    exact afterFirst_notMem_of_count hc
  · rw [if_neg hc]
    exact notMem_beforeFirst _ _

/-! ## Claims on the dispatch and on `parseRedisURL` -/

/-- C16: no string has two of the scheme literals as a prefix, so
`BrokerFactory` and `BackendFactory` act on the scheme that the prefix checks
select in any order whatever, and on a string with none of the literals as a
prefix both return no client and the error "Factory failed with ...". -/
theorem scheme_selection_order_independent {E B K : Type} (bits : Nat)
    (bc : BrokerCtors E B) (kc : BackendCtors E K) (cnf : Config E) :
    (∀ (s : Str) (k1 k2 : Scheme), schemeLit k1 <+: s → schemeLit k2 <+: s → k1 = k2) ∧
    (∀ order : List Scheme, order.Perm [Scheme.amqp, Scheme.redis, Scheme.eager] →
      BrokerFactory bits bc cnf =
        brokerAction bits bc cnf (selectScheme order cnf.Broker)) ∧
    (∀ order : List Scheme,
      order.Perm [Scheme.amqp, Scheme.memcache, Scheme.redis, Scheme.mongodb, Scheme.eager] →
      BackendFactory bits kc cnf =
        backendAction bits kc cnf (selectScheme order cnf.ResultBackend)) ∧
    ((∀ k, ¬ schemeLit k <+: cnf.Broker) →
      BrokerFactory bits bc cnf = some (none, some (errBrokerFactory cnf.Broker))) ∧
    ((∀ k, ¬ schemeLit k <+: cnf.ResultBackend) →
      BackendFactory bits kc cnf = some (none, some (errBackendFactory cnf.ResultBackend))) := by
  refine ⟨?_, ?_, ?_, ?_, ?_⟩
  · intro s k1 k2 h1 h2
    exact scheme_unique s k1 k2 (HasPrefix_true h1) (HasPrefix_true h2)
  · intro order hperm
    rw [BrokerFactory_eq_action]
    congr 1
    exact (find_perm_of_unique hperm (scheme_unique cnf.Broker)).symm
  · intro order hperm
    rw [BackendFactory_eq_action]
    congr 1
    exact (find_perm_of_unique hperm (scheme_unique cnf.ResultBackend)).symm
  · intro h
    have h1 := HasPrefix_false (h Scheme.amqp)
    have h2 := HasPrefix_false (h Scheme.redis)
    have h3 := HasPrefix_false (h Scheme.eager)
    simp only [schemeLit] at h1 h2 h3
    simp [BrokerFactory, h1, h2, h3]
  · intro h
    have h1 := HasPrefix_false (h Scheme.amqp)
    have h2 := HasPrefix_false (h Scheme.memcache)
    have h3 := HasPrefix_false (h Scheme.redis)
    have h4 := HasPrefix_false (h Scheme.mongodb)
    have h5 := HasPrefix_false (h Scheme.eager)
    simp only [schemeLit] at h1 h2 h3 h4 h5
    simp [BackendFactory, h1, h2, h3, h4, h5]

theorem scheme_selection_order_independent_witness :
    BrokerFactory 64 termBrokers (mkConfig "redis://host".data "redis://host".data) =
        brokerAction 64 termBrokers (mkConfig "redis://host".data "redis://host".data)
          (selectScheme [Scheme.eager, Scheme.redis, Scheme.amqp] "redis://host".data) ∧
      BackendFactory 64 termBackends (mkConfig "redis://host".data "redis://host".data) =
        backendAction 64 termBackends (mkConfig "redis://host".data "redis://host".data)
          (selectScheme [Scheme.eager, Scheme.mongodb, Scheme.redis, Scheme.memcache,
            Scheme.amqp] "redis://host".data) ∧
      BrokerFactory 64 termBrokers (mkConfig "notascheme://x".data []) =
        some (none, some (errBrokerFactory "notascheme://x".data)) :=
  ⟨(scheme_selection_order_independent 64 termBrokers termBackends
      (mkConfig "redis://host".data "redis://host".data)).2.1 _ (by decide),
    (scheme_selection_order_independent 64 termBrokers termBackends
      (mkConfig "redis://host".data "redis://host".data)).2.2.1 _ (by decide),
    (scheme_selection_order_independent 64 termBrokers termBackends
      (mkConfig "notascheme://x".data [])).2.2.2.1 (fun k => by cases k <;> decide)⟩

/-- C17: on a string that begins with `redis://`, `BrokerFactory` returns no
error exactly when `BackendFactory` returns no error, both then build their
client from the same host, password and db, which are the result of
`parseRedisURL`; and whenever the string splits into two segments at
`redis://`, as `BrokerFactory` checks, `parseRedisURL` returns no error. -/
theorem factories_redis_agree {E B K : Type} (bits : Nat) (bc : BrokerCtors E B)
    (kc : BackendCtors E K) (cb ck : Config E) (s : Str)
    (hb : cb.Broker = s) (hk : ck.ResultBackend = s) (h : redisScheme <+: s) :
    (∃ ob ok eb ek, BrokerFactory bits bc cb = some (ob, eb) ∧
      BackendFactory bits kc ck = some (ok, ek) ∧ (eb = none ↔ ek = none) ∧
      (eb = none → ∃ host pw db,
        parseRedisURL bits s = some { host := host, password := pw, db := db, err := none } ∧
        ob = some (bc.NewRedisBroker cb host pw db) ∧
        ok = some (kc.NewRedisBackend ck host pw db))) ∧
    ((Split s redisScheme).length = 2 → ∃ r, parseRedisURL bits s = some r ∧ r.err = none) := by
  obtain ⟨rest, hrest⟩ := h
  have hB := BrokerFactory_redis_eq bits bc cb rest (hb.trans hrest.symm)
  have hK := BackendFactory_redis_eq bits kc ck rest (hk.trans hrest.symm)
  by_cases hi : redisScheme <:+: rest
  · rw [if_pos hi] at hB hK
    refine ⟨⟨_, _, _, _, hB, hK, by simp, by simp⟩, ?_⟩
    intro hlen
    exfalso
    obtain ⟨m, hm⟩ : ∃ m, Index rest redisScheme = some m := by
      cases hI : Index rest redisScheme with
      | none => exact absurd hi ((Index_none_iff _ _).mp hI)
      | some m => exact ⟨m, rfl⟩
    have h2 := Split_cut_length redisScheme_ne_nil hm
    rw [← hrest, Split_leading redisScheme_ne_nil, List.length_cons] at hlen
    omega
  · rw [if_neg hi] at hB hK
    have hok := parseRedisURL_scheme_ok bits rest hi
    rw [hrest] at hok
    exact ⟨⟨_, _, _, _, hB, hK, by simp, fun _ => ⟨_, _, _, hok, rfl, rfl⟩⟩,
      fun _ => ⟨_, hok, rfl⟩⟩

theorem factories_redis_agree_witness :
    (∃ ob ok eb ek,
      BrokerFactory 64 termBrokers (mkConfig "redis://secret@host/3".data []) = some (ob, eb) ∧
      BackendFactory 64 termBackends (mkConfig [] "redis://secret@host/3".data) = some (ok, ek) ∧
      (eb = none ↔ ek = none) ∧
      (eb = none → ∃ host pw db,
        parseRedisURL 64 "redis://secret@host/3".data =
          some { host := host, password := pw, db := db, err := none } ∧
        ob = some (termBrokers.NewRedisBroker (mkConfig "redis://secret@host/3".data [])
          host pw db) ∧
        ok = some (termBackends.NewRedisBackend (mkConfig [] "redis://secret@host/3".data)
          host pw db))) ∧
    ((Split "redis://secret@host/3".data redisScheme).length = 2 →
      ∃ r, parseRedisURL 64 "redis://secret@host/3".data = some r ∧ r.err = none) :=
  factories_redis_agree 64 termBrokers termBackends
    (mkConfig "redis://secret@host/3".data []) (mkConfig [] "redis://secret@host/3".data)
    "redis://secret@host/3".data rfl rfl (by decide)

/-- C18: `parseRedisURL` returns on every string (no index expression is out
of range): each of its three calls of `Split` yields at least one segment, and
the function yields a result record, with or without an error. -/
theorem parseRedisURL_total (bits : Nat) (url : Str) :
    (∃ r, parseRedisURL bits url = some r) ∧
      1 ≤ (Split url redisScheme).length ∧
      ∀ t : Str, 1 ≤ (Split t ['@']).length ∧ 1 ≤ (Split t ['/']).length := by
  refine ⟨?_, List.length_pos.mpr (Split_ne_nil _ _), fun t =>
    ⟨List.length_pos.mpr (Split_ne_nil _ _), List.length_pos.mpr (Split_ne_nil _ _)⟩⟩
  rcases parseRedisURL_cases bits url with ⟨_, _, _, hr⟩ | ⟨_, _, hr⟩
  · exact ⟨_, hr⟩
  · exact ⟨_, hr⟩

/-- C19: on success the host returned by `parseRedisURL` contains neither `@`
nor `/`, and the password contains no `@`. -/
theorem parseRedisURL_host_password_chars (bits : Nat) (url : Str) (r : RedisURL)
    (h : parseRedisURL bits url = some r) (he : r.err = none) :
    '@' ∉ r.host ∧ '/' ∉ r.host ∧ '@' ∉ r.password := by
  obtain ⟨rest, rfl, _, rfl⟩ := parseRedisURL_success h he
  refine ⟨?_, notMem_beforeFirst _ _, ?_⟩
  · intro hm
    exact notMem_hostAndDbPart rest (mem_of_mem_beforeFirst hm)
  · show '@' ∉ passwordPart rest
    unfold passwordPart
    by_cases hc : rest.count '@' = 1
    · rw [if_pos hc]
      exact notMem_beforeFirst _ _
    · rw [if_neg hc]
      simp

theorem parseRedisURL_host_password_chars_witness :
    parseRedisURL 64 "redis://secret@host/3".data =
        some { host := "host".data, password := "secret".data, db := 3, err := none } ∧
      ('@' ∉ "host".data ∧ '/' ∉ "host".data ∧ '@' ∉ "secret".data) :=
  ⟨by decide, parseRedisURL_host_password_chars 64 "redis://secret@host/3".data
    { host := "host".data, password := "secret".data, db := 3, err := none } (by decide) rfl⟩

/-- C20: when `redis://` is followed by a text `rest` that does not contain
`redis://` and has two or more `@`, `parseRedisURL` succeeds with the empty
password, and host and db are those of the text before the first `@`: the
result is the same as for `redis://` followed by that text alone. -/
theorem parseRedisURL_many_at (bits : Nat) (rest : Str)
    (h1 : ¬ redisScheme <:+: rest) (h2 : 2 ≤ rest.count '@') :
    parseRedisURL bits (redisScheme ++ rest) = some
        { host := beforeFirst '/' (beforeFirst '@' rest)
          password := []
          db := if '/' ∈ beforeFirst '@' rest then
                  (Atoi bits (dbSegment (beforeFirst '@' rest))).getD 0 else 0
          err := none } ∧
      parseRedisURL bits (redisScheme ++ rest) =
        parseRedisURL bits (redisScheme ++ beforeFirst '@' rest) := by
  have hc : ¬ rest.count '@' = 1 := by omega
  have hpw : passwordPart rest = [] := by rw [passwordPart, if_neg hc]
  have hhd : hostAndDbPart rest = beforeFirst '@' rest := by rw [hostAndDbPart, if_neg hc]
  have hb : ¬ redisScheme <:+: beforeFirst '@' rest := fun hi =>
    h1 (hi.trans (List.takeWhile_prefix _).isInfix)
  have hcb : ¬ (beforeFirst '@' rest).count '@' = 1 := by
    rw [List.count_eq_zero_of_not_mem (notMem_beforeFirst _ _)]
    omega
  have hpw2 : passwordPart (beforeFirst '@' rest) = [] := by rw [passwordPart, if_neg hcb]
  have hhd2 : hostAndDbPart (beforeFirst '@' rest) = beforeFirst '@' rest := by
    rw [hostAndDbPart, if_neg hcb, beforeFirst_notMem (notMem_beforeFirst _ _)]
  have e1 := parseRedisURL_scheme_ok bits rest h1
  have e2 := parseRedisURL_scheme_ok bits _ hb
  rw [hpw, hhd] at e1
  rw [hpw2, hhd2] at e2
  exact ⟨e1, e1.trans e2.symm⟩

theorem parseRedisURL_many_at_witness :
    parseRedisURL 64 "redis://pw@host@x".data =
      some { host := "pw".data, password := [], db := 0, err := none } :=
  (parseRedisURL_many_at 64 "pw@host@x".data (by decide) (by decide)).1

end Machinery
